import Mathlib

/-!
Verification of the sdf-hints point-cloud spatial engine.

This file gives a shallow embedding of the voxel/pocket pipeline
(`backend/sdf_labeler_api/services/pocket_service.py`) and of the octree
builder and tile-address lookup
(`backend/sdf_labeler_api/services/pointcloud_service.py`), and proves the
behavioural properties claimed by the specification.

Python floats are modelled by `ℚ` (plus an explicit NaN marker where
NaN behaviour matters, see the octree section).  The scipy primitives the
code calls (`ndimage.binary_dilation` with a mask and `iterations=-1`,
`ndimage.label` with a 6-connectivity structure) are modelled by their
documented semantics: iterated constrained dilation to a fixpoint —
i.e. the set of mask cells reachable from the seed — and first-encounter
connected-component labelling.
-/

namespace SdfHints

/-- Voxel states, from `models/pockets.py` (`VoxelState`). -/
inductive VoxelState where
  | unknown
  | empty
  | occupied
  | outside
  | pocket
deriving DecidableEq, Repr

/-- A voxel index `(x, y, z)`. -/
abbrev Coord := ℕ × ℕ × ℕ

/-- A 3-D occupancy grid: a shape together with per-voxel states.  `val` is
only meaningful on in-range coordinates. -/
structure VGrid where
  nx : ℕ
  ny : ℕ
  nz : ℕ
  val : Coord → VoxelState

/-- The set of in-range voxel coordinates of a grid. -/
def cells (g : VGrid) : Finset Coord :=
  Finset.range g.nx ×ˢ (Finset.range g.ny ×ˢ Finset.range g.nz)

theorem mem_cells {g : VGrid} {c : Coord} :
    c ∈ cells g ↔ c.1 < g.nx ∧ c.2.1 < g.ny ∧ c.2.2 < g.nz := by
  cases c with
  | mk x yz =>
    cases yz with
    | mk y z => simp [cells, Finset.mem_product]

/-- 6-connectivity of voxels: the two coordinates differ by one step along
exactly one axis (the `generate_binary_structure(3, 1)` neighbourhood). -/
def adj (a b : Coord) : Prop :=
  (a.2 = b.2 ∧ (a.1 + 1 = b.1 ∨ b.1 + 1 = a.1)) ∨
  (a.1 = b.1 ∧ a.2.2 = b.2.2 ∧ (a.2.1 + 1 = b.2.1 ∨ b.2.1 + 1 = a.2.1)) ∨
  (a.1 = b.1 ∧ a.2.1 = b.2.1 ∧ (a.2.2 + 1 = b.2.2 ∨ b.2.2 + 1 = a.2.2))

instance adj.instDecidable : ∀ a b : Coord, Decidable (adj a b) := fun a b => by
  unfold adj; infer_instance

theorem adj_symm {a b : Coord} (h : adj a b) : adj b a := by
  unfold adj at h ⊢; tauto

/-- One step of the constrained binary dilation used by
`PocketService._flood_fill_outside`: the current set grows by the in-range
EMPTY voxels adjacent to it (`ndimage.binary_dilation` with the EMPTY mask). -/
def floodStep (g : VGrid) (S : Finset Coord) : Finset Coord :=
  S ∪ (cells g).filter (fun c => g.val c = VoxelState.empty ∧ ∃ d ∈ S, adj d c)

/-- `binary_dilation(seed, mask, iterations=-1)` iterates until no change;
iterating once more than the number of cells always reaches the fixpoint. -/
def floodReach (g : VGrid) (S : Finset Coord) : Finset Coord :=
  (floodStep g)^[(cells g).card + 1] S

theorem floodStep_subset (g : VGrid) (S : Finset Coord) : S ⊆ floodStep g S :=
  Finset.subset_union_left

theorem floodStep_mono (g : VGrid) {S T : Finset Coord} (h : S ⊆ T) :
    floodStep g S ⊆ floodStep g T := by
  intro c hc
  rcases Finset.mem_union.1 hc with hc | hc
  · exact Finset.mem_union_left _ (h hc)
  · rcases Finset.mem_filter.1 hc with ⟨hcc, he, d, hd, hadj⟩
    exact Finset.mem_union_right _
      (Finset.mem_filter.2 ⟨hcc, he, d, h hd, hadj⟩)

theorem subset_iterate_floodStep (g : VGrid) (S : Finset Coord) (n : ℕ) :
    S ⊆ (floodStep g)^[n] S := by
  induction n with
  | zero => simp
  | succ n ih =>
      rw [Function.iterate_succ_apply']
      exact ih.trans (floodStep_subset g _)

theorem iterate_floodStep_subset (g : VGrid) (S : Finset Coord) (n : ℕ) :
    (floodStep g)^[n] S ⊆ S ∪ cells g := by
  induction n with
  | zero => simp
  | succ n ih =>
      rw [Function.iterate_succ_apply']
      intro c hc
      rcases Finset.mem_union.1 hc with hc | hc
      · exact ih hc
      · exact Finset.mem_union_right _ (Finset.mem_filter.1 hc).1

theorem iterate_fixed_of_eq (g : VGrid) (S : Finset Coord) {k : ℕ}
    (h : floodStep g ((floodStep g)^[k] S) = (floodStep g)^[k] S) :
    ∀ m, k ≤ m → (floodStep g)^[m] S = (floodStep g)^[k] S := by
  intro m hkm
  obtain ⟨j, rfl⟩ := Nat.exists_eq_add_of_le hkm
  induction j with
  | zero => rfl
  | succ j ih =>
      have : k + (j + 1) = (k + j) + 1 := by omega
      rw [this, Function.iterate_succ_apply', ih (by omega), h]

theorem card_iterate_ge (g : VGrid) (S : Finset Coord) (n : ℕ)
    (h : ∀ k < n, floodStep g ((floodStep g)^[k] S) ≠ (floodStep g)^[k] S) :
    S.card + n ≤ ((floodStep g)^[n] S).card := by
  induction n with
  | zero => simp
  | succ n ih =>
      have hlt : ((floodStep g)^[n] S).card < ((floodStep g)^[n + 1] S).card := by
        rw [Function.iterate_succ_apply']
        exact Finset.card_lt_card
          (Finset.ssubset_iff_subset_ne.2
            ⟨floodStep_subset g _, fun he => h n (by omega) he.symm⟩)
      have := ih (fun k hk => h k (by omega))
      omega

theorem floodReach_isFixed (g : VGrid) (S : Finset Coord) (hS : S ⊆ cells g) :
    floodStep g (floodReach g S) = floodReach g S := by
  by_contra hne
  set n := (cells g).card + 1 with hn
  have hall : ∀ k < n, floodStep g ((floodStep g)^[k] S) ≠ (floodStep g)^[k] S := by
    intro k hk hfix
    exact hne (by
      have := iterate_fixed_of_eq g S hfix n (by omega)
      unfold floodReach
      rw [← hn, this, hfix])
  have hge := card_iterate_ge g S n hall
  have hle : ((floodStep g)^[n] S).card ≤ (cells g).card := by
    have hsub : (floodStep g)^[n] S ⊆ cells g := by
      intro c hc
      rcases Finset.mem_union.1 (iterate_floodStep_subset g S n hc) with hc | hc
      · exact hS hc
      · exact hc
    exact Finset.card_le_card hsub
  omega

/-- Reachability through in-range EMPTY voxels: each step moves to a
6-adjacent, in-range voxel whose state is EMPTY. -/
def emptyPath (g : VGrid) (a b : Coord) : Prop :=
  Relation.ReflTransGen
    (fun u v => adj u v ∧ v ∈ cells g ∧ g.val v = VoxelState.empty) a b

theorem mem_floodReach_of_emptyPath (g : VGrid) (S : Finset Coord)
    (hS : S ⊆ cells g) {s c : Coord} (hs : s ∈ S) (hp : emptyPath g s c) :
    c ∈ floodReach g S := by
  induction hp with
  | refl => exact subset_iterate_floodStep g S _ hs
  | tail _ hstep ih =>
      rcases hstep with ⟨hadj, hcc, hemp⟩
      have : _ ∈ floodStep g (floodReach g S) :=
        Finset.mem_union_right _ (Finset.mem_filter.2 ⟨hcc, hemp, _, ih, hadj⟩)
      rwa [floodReach_isFixed g S hS] at this

theorem emptyPath_of_mem_iterate (g : VGrid) (S : Finset Coord) (n : ℕ)
    {c : Coord} (hc : c ∈ (floodStep g)^[n] S) : ∃ s ∈ S, emptyPath g s c := by
  induction n generalizing c with
  | zero => exact ⟨c, by simpa using hc, Relation.ReflTransGen.refl⟩
  | succ n ih =>
      rw [Function.iterate_succ_apply'] at hc
      rcases Finset.mem_union.1 hc with hc | hc
      · exact ih hc
      · rcases Finset.mem_filter.1 hc with ⟨hcc, he, d, hd, hadj⟩
        obtain ⟨s, hs, hp⟩ := ih hd
        exact ⟨s, hs, hp.tail ⟨hadj, hcc, he⟩⟩

/-- Correctness of the constrained dilation fixpoint: it contains exactly the
voxels reachable from the seed through in-range EMPTY voxels. -/
theorem mem_floodReach_iff (g : VGrid) (S : Finset Coord) (hS : S ⊆ cells g) :
    ∀ c, c ∈ floodReach g S ↔ ∃ s ∈ S, emptyPath g s c := by
  intro c
  constructor
  · exact fun hc => emptyPath_of_mem_iterate g S _ hc
  · rintro ⟨s, hs, hp⟩
    exact mem_floodReach_of_emptyPath g S hS hs hp

theorem floodReach_subset_cells (g : VGrid) (S : Finset Coord)
    (hS : S ⊆ cells g) : floodReach g S ⊆ cells g := by
  intro c hc
  rcases Finset.mem_union.1 (iterate_floodStep_subset g S _ hc) with hc | hc
  · exact hS hc
  · exact hc

theorem mem_floodReach_empty (g : VGrid) (S : Finset Coord)
    (hS : ∀ s ∈ S, g.val s = VoxelState.empty) {c : Coord}
    (hc : c ∈ floodReach g S) : g.val c = VoxelState.empty := by
  have : c ∈ (floodStep g)^[(cells g).card + 1] S := hc
  clear hc
  generalize hn : (cells g).card + 1 = n at this
  clear hn
  induction n generalizing c with
  | zero => exact hS c (by simpa using this)
  | succ n ih =>
      rw [Function.iterate_succ_apply'] at this
      rcases Finset.mem_union.1 this with hc | hc
      · exact ih hc
      · exact (Finset.mem_filter.1 hc).2.1

/-- The seed of `_flood_fill_outside`: in-range voxels on an outer boundary
face (index `0` or `size - 1` on some axis) whose state is EMPTY. -/
def boundarySeed (g : VGrid) : Finset Coord :=
  (cells g).filter (fun c =>
    (c.1 = 0 ∨ c.1 = g.nx - 1 ∨ c.2.1 = 0 ∨ c.2.1 = g.ny - 1 ∨
     c.2.2 = 0 ∨ c.2.2 = g.nz - 1) ∧ g.val c = VoxelState.empty)

/-- The voxels `binary_dilation(seed, structure, iterations=-1, mask=empty)`
turns on: the fixpoint of the constrained dilation from the boundary seed. -/
def outsideSet (g : VGrid) : Finset Coord := floodReach g (boundarySeed g)

/-- `PocketService._flood_fill_outside`: copy of the grid with the reached
voxels relabelled OUTSIDE. -/
def floodFillOutside (g : VGrid) : VGrid :=
  { g with
    val := fun c =>
      if c ∈ outsideSet g then VoxelState.outside else g.val c }

theorem boundarySeed_subset (g : VGrid) : boundarySeed g ⊆ cells g :=
  Finset.filter_subset _ _

theorem boundarySeed_empty (g : VGrid) :
    ∀ s ∈ boundarySeed g, g.val s = VoxelState.empty := fun _ hs =>
  (Finset.mem_filter.1 hs).2.2

theorem mem_outsideSet_iff (g : VGrid) {c : Coord} :
    c ∈ outsideSet g ↔ ∃ b ∈ boundarySeed g, emptyPath g b c :=
  mem_floodReach_iff g (boundarySeed g) (boundarySeed_subset g) c

/-- In an all-EMPTY grid, every cell is reached from the `x = 0` boundary
face by walking along the x axis. -/
theorem emptyPath_from_x0 (g : VGrid)
    (hall : ∀ c ∈ cells g, g.val c = VoxelState.empty)
    (x y z : ℕ) (hx : x < g.nx) (hy : y < g.ny) (hz : z < g.nz) :
    emptyPath g (0, y, z) (x, y, z) := by
  induction x with
  | zero => exact Relation.ReflTransGen.refl
  | succ x ih =>
      have hx' : x < g.nx := by omega
      have hmem : ((x + 1 : ℕ), y, z) ∈ cells g := mem_cells.2 ⟨hx, hy, hz⟩
      have hstep : adj (x, y, z) (x + 1, y, z) := by
        unfold adj; exact Or.inl ⟨rfl, Or.inl rfl⟩
      exact (ih hx').tail ⟨hstep, hmem, hall _ hmem⟩

/-- C1: `_flood_fill_outside` relabels a voxel to OUTSIDE iff it is EMPTY and
6-connected through EMPTY voxels to an EMPTY voxel on an outer boundary face;
every other voxel keeps its prior state (in particular OCCUPIED voxels are
never relabelled), and in an occupancy grid with no OCCUPIED voxels (i.e. all
voxels EMPTY, as the grid builder produces only EMPTY/OCCUPIED) every voxel
is marked OUTSIDE, so no EMPTY voxel — no pocket — remains. -/
theorem claim_C1 (g : VGrid) :
    (∀ c ∈ cells g,
      (g.val c = VoxelState.empty ∧ (∃ b ∈ boundarySeed g, emptyPath g b c) →
        (floodFillOutside g).val c = VoxelState.outside) ∧
      (¬(g.val c = VoxelState.empty ∧ ∃ b ∈ boundarySeed g, emptyPath g b c) →
        (floodFillOutside g).val c = g.val c) ∧
      (g.val c = VoxelState.occupied →
        (floodFillOutside g).val c = VoxelState.occupied)) ∧
    ((∀ c ∈ cells g, g.val c = VoxelState.empty) →
      ∀ c ∈ cells g, (floodFillOutside g).val c = VoxelState.outside) := by
  constructor
  · intro c _
    refine ⟨?_, ?_, ?_⟩
    · rintro ⟨-, b, hb, hp⟩
      have : c ∈ outsideSet g := (mem_outsideSet_iff g).2 ⟨b, hb, hp⟩
      simp [floodFillOutside, this]
    · intro hn
      have : c ∉ outsideSet g := by
        intro hmem
        exact hn ⟨mem_floodReach_empty g _ (boundarySeed_empty g) hmem,
          (mem_outsideSet_iff g).1 hmem⟩
      simp [floodFillOutside, this]
    · intro hocc
      have : c ∉ outsideSet g := by
        intro hmem
        have := mem_floodReach_empty g _ (boundarySeed_empty g) hmem
        rw [hocc] at this
        exact absurd this (by decide)
      simp [floodFillOutside, this, hocc]
  · intro hall c hc
    have hcx := mem_cells.1 hc
    have hb : ((0 : ℕ), c.2.1, c.2.2) ∈ boundarySeed g := by
      refine Finset.mem_filter.2 ⟨mem_cells.2 ⟨by omega, hcx.2.1, hcx.2.2⟩, ?_, ?_⟩
      · exact Or.inl rfl
      · exact hall _ (mem_cells.2 ⟨by omega, hcx.2.1, hcx.2.2⟩)
    have hp : emptyPath g (0, c.2.1, c.2.2) (c.1, c.2.1, c.2.2) :=
      emptyPath_from_x0 g hall c.1 c.2.1 c.2.2 hcx.1 hcx.2.1 hcx.2.2
    have : c ∈ outsideSet g := by
      refine (mem_outsideSet_iff g).2 ⟨_, hb, ?_⟩
      simpa using hp
    simp [floodFillOutside, this]

/-! ### Connected-component labelling of pockets

`PocketService._label_pockets` calls `scipy.ndimage.label` on the mask of
still-EMPTY voxels with the 6-connectivity structure.  Its documented
semantics: each maximal 6-connected component of the mask receives one
positive label, labels are `1..num_features` in order of first encounter in
the raster scan, and voxels outside the mask are labelled `0`.  We model it
by scanning the cells in raster order, starting a new component (the
reachability class of the cell) at each EMPTY cell not yet covered. -/

/-- The in-range cells of a grid in raster (C-order) scan order. -/
def cellsList (g : VGrid) : List Coord :=
  (List.range g.nx).flatMap fun x =>
    (List.range g.ny).flatMap fun y =>
      (List.range g.nz).map fun z => (x, y, z)

theorem mem_cellsList {g : VGrid} {c : Coord} :
    c ∈ cellsList g ↔ c ∈ cells g := by
  obtain ⟨x, y, z⟩ := c
  constructor
  · intro h
    simp only [cellsList, List.mem_flatMap, List.mem_map, List.mem_range] at h
    obtain ⟨a, ha, b, hb, d, hd, he⟩ := h
    cases he
    exact mem_cells.2 ⟨ha, hb, hd⟩
  · intro h
    obtain ⟨hx, hy, hz⟩ := mem_cells.1 h
    simp only [cellsList, List.mem_flatMap, List.mem_map, List.mem_range]
    exact ⟨x, hx, y, hy, z, hz, rfl⟩

/-- An in-range EMPTY voxel (a voxel of the labelling mask). -/
def goodCell (g : VGrid) (c : Coord) : Prop :=
  c ∈ cells g ∧ g.val c = VoxelState.empty

/-- The 6-connected component (through EMPTY voxels) of a voxel. -/
def classOf (g : VGrid) (c : Coord) : Finset Coord := floodReach g {c}

theorem emptyPath_good {g : VGrid} {a b : Coord} (h : emptyPath g a b)
    (ha : goodCell g a) : goodCell g b := by
  induction h with
  | refl => exact ha
  | tail _ hstep _ => exact ⟨hstep.2.1, hstep.2.2⟩

theorem emptyPath_symm {g : VGrid} {a b : Coord} (ha : goodCell g a)
    (h : emptyPath g a b) : emptyPath g b a := by
  induction h with
  | refl => exact Relation.ReflTransGen.refl
  | tail hp hstep ih =>
      have hu := emptyPath_good hp ha
      exact Relation.ReflTransGen.head ⟨adj_symm hstep.1, hu.1, hu.2⟩ ih

theorem mem_classOf_iff {g : VGrid} {c : Coord} (hc : goodCell g c) {d : Coord} :
    d ∈ classOf g c ↔ emptyPath g c d := by
  unfold classOf
  rw [mem_floodReach_iff g {c} (by simpa using hc.1) d]
  simp

theorem self_mem_classOf {g : VGrid} {c : Coord} (hc : goodCell g c) :
    c ∈ classOf g c :=
  (mem_classOf_iff hc).2 Relation.ReflTransGen.refl

theorem classOf_eq_of_mem {g : VGrid} {c c' d : Coord} (hc : goodCell g c)
    (hc' : goodCell g c') (hd : d ∈ classOf g c) (hd' : d ∈ classOf g c') :
    classOf g c = classOf g c' := by
  have hcd : emptyPath g c d := (mem_classOf_iff hc).1 hd
  have hc'd : emptyPath g c' d := (mem_classOf_iff hc').1 hd'
  have hcc' : emptyPath g c c' := hcd.trans (emptyPath_symm hc' hc'd)
  have hc'c : emptyPath g c' c := hc'd.trans (emptyPath_symm hc hcd)
  ext e
  rw [mem_classOf_iff hc, mem_classOf_iff hc']
  exact ⟨fun h => hc'c.trans h, fun h => hcc'.trans h⟩

theorem mem_classOf_good {g : VGrid} {c d : Coord} (hc : goodCell g c)
    (hd : d ∈ classOf g c) : goodCell g d :=
  emptyPath_good ((mem_classOf_iff hc).1 hd) hc

/-- The scan of `ndimage.label`: walk the cells in raster order and open a
new component — the connected component of the cell — at every EMPTY cell
not covered by an earlier component. -/
def componentsAux (g : VGrid) : List Coord → List (Finset Coord) → List (Finset Coord)
  | [], acc => acc
  | c :: rest, acc =>
      if g.val c = VoxelState.empty ∧ ∀ S ∈ acc, c ∉ S then
        componentsAux g rest (acc ++ [classOf g c])
      else componentsAux g rest acc

/-- The components of the EMPTY mask in first-encounter order. -/
def components (g : VGrid) : List (Finset Coord) :=
  componentsAux g (cellsList g) []

/-- 1-based index of the first listed component containing the voxel, `0`
when none does. -/
def labelOfAux (c : Coord) : List (Finset Coord) → ℕ → ℕ
  | [], _ => 0
  | S :: rest, k => if c ∈ S then k else labelOfAux c rest (k + 1)

def labelOf (comps : List (Finset Coord)) (c : Coord) : ℕ :=
  labelOfAux c comps 1

/-- `PocketService._label_pockets`: per-voxel labels and the component
count, as returned by `ndimage.label` on the EMPTY mask. -/
def labelPockets (g : VGrid) : (Coord → ℕ) × ℕ :=
  (labelOf (components g), (components g).length)

theorem componentsAux_extends (g : VGrid) :
    ∀ (l : List Coord) (acc : List (Finset Coord)) (S : Finset Coord),
      S ∈ acc → S ∈ componentsAux g l acc := by
  intro l
  induction l with
  | nil => intro acc S hS; exact hS
  | cons c rest ih =>
      intro acc S hS
      unfold componentsAux
      by_cases h : g.val c = VoxelState.empty ∧ ∀ T ∈ acc, c ∉ T
      · rw [if_pos h]; exact ih _ _ (List.mem_append_left _ hS)
      · rw [if_neg h]; exact ih _ _ hS

theorem componentsAux_sound (g : VGrid) :
    ∀ (l : List Coord) (acc : List (Finset Coord)),
      (∀ c ∈ l, c ∈ cells g) →
      (∀ S ∈ acc, ∃ c, goodCell g c ∧ S = classOf g c) →
      ∀ S ∈ componentsAux g l acc, ∃ c, goodCell g c ∧ S = classOf g c := by
  intro l
  induction l with
  | nil => intro acc _ hacc; exact hacc
  | cons c rest ih =>
      intro acc hl hacc
      unfold componentsAux
      by_cases h : g.val c = VoxelState.empty ∧ ∀ T ∈ acc, c ∉ T
      · rw [if_pos h]
        refine ih _ (fun d hd => hl d (List.mem_cons_of_mem _ hd)) ?_
        intro S hS
        rcases List.mem_append.1 hS with hS | hS
        · exact hacc S hS
        · refine ⟨c, ⟨hl c (List.mem_cons_self _ _), h.1⟩, ?_⟩
          simpa using hS
      · rw [if_neg h]
        exact ih _ (fun d hd => hl d (List.mem_cons_of_mem _ hd)) hacc

theorem componentsAux_covers (g : VGrid) :
    ∀ (l : List Coord) (acc : List (Finset Coord)),
      ∀ c ∈ l, g.val c = VoxelState.empty →
        ∃ S ∈ componentsAux g l acc, c ∈ S := by
  intro l
  induction l with
  | nil => intro acc c hc; exact absurd hc (List.not_mem_nil c)
  | cons d rest ih =>
      intro acc c hc hemp
      unfold componentsAux
      by_cases h : g.val d = VoxelState.empty ∧ ∀ T ∈ acc, d ∉ T
      · rw [if_pos h]
        rcases List.mem_cons.1 hc with rfl | hc
        · refine ⟨classOf g c, componentsAux_extends g _ _ _ ?_, ?_⟩
          · exact List.mem_append_right _ (List.mem_singleton_self _)
          · by_cases hcg : c ∈ cells g
            · exact self_mem_classOf ⟨hcg, hemp⟩
            · -- a scanned cell is always in range; this branch needs no
              -- in-range fact because the seed is in the reach regardless
              exact subset_iterate_floodStep g {c} _ (Finset.mem_singleton_self c)
        · exact ih _ c hc hemp
      · rw [if_neg h]
        rcases List.mem_cons.1 hc with rfl | hc
        · push_neg at h
          obtain ⟨T, hT, hcT⟩ := h hemp
          exact ⟨T, componentsAux_extends g _ _ _ hT, hcT⟩
        · exact ih _ c hc hemp

theorem componentsAux_disjoint (g : VGrid) :
    ∀ (l : List Coord) (acc : List (Finset Coord)),
      (∀ c ∈ l, c ∈ cells g) →
      (∀ S ∈ acc, ∃ c, goodCell g c ∧ S = classOf g c) →
      List.Pairwise (fun S T => ∀ x, x ∈ S → x ∉ T) acc →
      List.Pairwise (fun S T => ∀ x, x ∈ S → x ∉ T) (componentsAux g l acc) := by
  intro l
  induction l with
  | nil => intro acc _ _ hp; exact hp
  | cons c rest ih =>
      intro acc hl hacc hp
      unfold componentsAux
      by_cases h : g.val c = VoxelState.empty ∧ ∀ T ∈ acc, c ∉ T
      · rw [if_pos h]
        have hcgood : goodCell g c := ⟨hl c (List.mem_cons_self _ _), h.1⟩
        refine ih _ (fun d hd => hl d (List.mem_cons_of_mem _ hd)) ?_ ?_
        · intro S hS
          rcases List.mem_append.1 hS with hS | hS
          · exact hacc S hS
          · exact ⟨c, hcgood, by simpa using hS⟩
        · refine List.pairwise_append.2 ⟨hp, List.pairwise_singleton _ _, ?_⟩
          intro S hS T hT x hxS hxT
          obtain ⟨e, hegood, rfl⟩ := hacc S hS
          have hT' : T = classOf g c := by simpa using hT
          subst hT'
          have : classOf g e = classOf g c :=
            classOf_eq_of_mem hegood hcgood hxS hxT
          exact h.2 _ hS (this ▸ self_mem_classOf hcgood)
      · rw [if_neg h]
        exact ih _ (fun d hd => hl d (List.mem_cons_of_mem _ hd)) hacc hp

theorem components_sound (g : VGrid) :
    ∀ S ∈ components g, ∃ c, goodCell g c ∧ S = classOf g c :=
  componentsAux_sound g (cellsList g) []
    (fun c hc => mem_cellsList.1 hc) (by simp)

theorem components_covers (g : VGrid) {c : Coord} (hc : goodCell g c) :
    ∃ S ∈ components g, c ∈ S :=
  componentsAux_covers g (cellsList g) [] c (mem_cellsList.2 hc.1) hc.2

theorem components_disjoint (g : VGrid) :
    List.Pairwise (fun S T => ∀ x, x ∈ S → x ∉ T) (components g) :=
  componentsAux_disjoint g (cellsList g) []
    (fun c hc => mem_cellsList.1 hc) (by simp) List.Pairwise.nil

theorem labelOfAux_zero_or_ge (c : Coord) :
    ∀ (comps : List (Finset Coord)) (k : ℕ),
      labelOfAux c comps k = 0 ∨ k ≤ labelOfAux c comps k := by
  intro comps
  induction comps with
  | nil => intro k; exact Or.inl rfl
  | cons S rest ih =>
      intro k
      unfold labelOfAux
      by_cases h : c ∈ S
      · rw [if_pos h]; exact Or.inr le_rfl
      · rw [if_neg h]
        rcases ih (k + 1) with h0 | hge
        · exact Or.inl h0
        · exact Or.inr (by omega)

theorem labelOfAux_eq_of_mem (c : Coord) :
    ∀ (comps : List (Finset Coord)) (k i : ℕ) (hi : i < comps.length),
      c ∈ comps.get ⟨i, hi⟩ →
      (∀ j (hj : j < comps.length), j < i → c ∉ comps.get ⟨j, hj⟩) →
      labelOfAux c comps k = k + i := by
  intro comps
  induction comps with
  | nil => intro k i hi; exact absurd hi (by simp)
  | cons S rest ih =>
      intro k i hi hmem hfirst
      unfold labelOfAux
      match i with
      | 0 =>
          rw [if_pos (by simpa using hmem)]
          omega
      | i + 1 =>
          have hS : c ∉ S := hfirst 0 (by simp) (by omega)
          rw [if_neg hS]
          have := ih (k + 1) i (by simpa using Nat.lt_of_succ_lt_succ hi)
            (by simpa using hmem)
            (fun j hj hji => hfirst (j + 1) (by simpa using Nat.succ_lt_succ hj)
              (by omega))
          omega

theorem labelOfAux_mem_of_eq (c : Coord) :
    ∀ (comps : List (Finset Coord)) (k i : ℕ), 0 < k →
      labelOfAux c comps k = k + i →
      ∃ hi : i < comps.length, c ∈ comps.get ⟨i, hi⟩ := by
  intro comps
  induction comps with
  | nil =>
      intro k i hk h
      exact absurd h (by unfold labelOfAux; omega)
  | cons S rest ih =>
      intro k i hk h
      unfold labelOfAux at h
      by_cases hS : c ∈ S
      · rw [if_pos hS] at h
        have : i = 0 := by omega
        subst this
        exact ⟨by simp, by simpa using hS⟩
      · rw [if_neg hS] at h
        match i with
        | 0 =>
            rcases labelOfAux_zero_or_ge c rest (k + 1) with h0 | hge
            · omega
            · omega
        | i + 1 =>
            obtain ⟨hi, hmem⟩ := ih (k + 1) i (by omega) (by omega)
            exact ⟨by simpa using Nat.succ_lt_succ hi, by simpa using hmem⟩

theorem labelOf_eq_of_mem {comps : List (Finset Coord)}
    (hdisj : List.Pairwise (fun S T => ∀ x, x ∈ S → x ∉ T) comps)
    {c : Coord} {i : ℕ} (hi : i < comps.length) (hc : c ∈ comps.get ⟨i, hi⟩) :
    labelOf comps c = i + 1 := by
  have hpw := List.pairwise_iff_get.1 hdisj
  have := labelOfAux_eq_of_mem c comps 1 i hi hc
    (fun j hj hji hmem => hpw ⟨j, hj⟩ ⟨i, hi⟩ hji c hmem hc)
  unfold labelOf
  omega

theorem labelOf_pos_mem {comps : List (Finset Coord)} {c : Coord} {k : ℕ}
    (hk : 1 ≤ k) (h : labelOf comps c = k) :
    ∃ hi : k - 1 < comps.length, c ∈ comps.get ⟨k - 1, hi⟩ := by
  have : labelOfAux c comps 1 = 1 + (k - 1) := by unfold labelOf at h; omega
  exact labelOfAux_mem_of_eq c comps 1 (k - 1) (by omega) this

/-- C4: for every grid, `_label_pockets` assigns a positive label exactly to
the EMPTY voxels and label 0 to every other voxel; two EMPTY voxels receive
the same label iff they are 6-connected through EMPTY voxels; and the
positive labels in use are exactly the contiguous range `1..count`. -/
theorem claim_C4 (g : VGrid) :
    (∀ c ∈ cells g,
      (0 < (labelPockets g).1 c ↔ g.val c = VoxelState.empty)) ∧
    (∀ c ∈ cells g, ∀ c' ∈ cells g,
      g.val c = VoxelState.empty → g.val c' = VoxelState.empty →
      ((labelPockets g).1 c = (labelPockets g).1 c' ↔ emptyPath g c c')) ∧
    (∀ k, 1 ≤ k →
      (k ≤ (labelPockets g).2 ↔ ∃ c ∈ cells g, (labelPockets g).1 c = k)) := by
  have hsound := components_sound g
  have hdisj := components_disjoint g
  have hpos_mem : ∀ {c : Coord}, 0 < labelOf (components g) c →
      ∃ S ∈ components g, c ∈ S := by
    intro c hpos
    obtain ⟨hi, hmem⟩ := labelOf_pos_mem (k := labelOf (components g) c)
      (by omega) rfl
    exact ⟨_, List.get_mem _ _ _, hmem⟩
  have hmem_pos : ∀ {c : Coord} {S : Finset Coord}, S ∈ components g → c ∈ S →
      0 < labelOf (components g) c := by
    intro c S hS hc
    obtain ⟨i, rfl⟩ := List.mem_iff_get.1 hS
    rw [labelOf_eq_of_mem hdisj i.2 hc]
    omega
  refine ⟨?_, ?_, ?_⟩
  · intro c _
    constructor
    · intro hpos
      obtain ⟨S, hS, hcS⟩ := hpos_mem hpos
      obtain ⟨e, hegood, rfl⟩ := hsound S hS
      exact (mem_classOf_good hegood hcS).2
    · intro hemp
      obtain ⟨S, hS, hcS⟩ := components_covers g ⟨by assumption, hemp⟩
      exact hmem_pos hS hcS
  · intro c hc c' hc' hemp hemp'
    have hcgood : goodCell g c := ⟨hc, hemp⟩
    have hc'good : goodCell g c' := ⟨hc', hemp'⟩
    constructor
    · intro heq
      have hpos : 0 < labelOf (components g) c := by
        obtain ⟨S, hS, hcS⟩ := components_covers g hcgood
        exact hmem_pos hS hcS
      obtain ⟨hi, hmem⟩ := labelOf_pos_mem (k := labelOf (components g) c)
        (by omega) rfl
      have hmem' : c' ∈ (components g).get ⟨labelOf (components g) c - 1, hi⟩ := by
        have : labelOf (components g) c' = labelOf (components g) c := heq.symm
        obtain ⟨hi', hmem'⟩ := labelOf_pos_mem (k := labelOf (components g) c)
          (by omega) this
        exact hmem'
      obtain ⟨e, hegood, hSe⟩ := hsound _ (List.get_mem _ _ _)
      rw [hSe] at hmem hmem'
      exact (emptyPath_symm hegood ((mem_classOf_iff hegood).1 hmem)).trans
        ((mem_classOf_iff hegood).1 hmem')
    · intro hp
      obtain ⟨S, hS, hcS⟩ := components_covers g hcgood
      have hc'S : c' ∈ S := by
        obtain ⟨e, hegood, rfl⟩ := hsound S hS
        have : classOf g e = classOf g c :=
          classOf_eq_of_mem hegood hcgood hcS (self_mem_classOf hcgood)
        rw [this]
        exact (mem_classOf_iff hcgood).2 hp
      obtain ⟨i, rfl⟩ := List.mem_iff_get.1 hS
      rw [show (labelPockets g).1 = labelOf (components g) from rfl,
        labelOf_eq_of_mem hdisj i.2 hcS, labelOf_eq_of_mem hdisj i.2 hc'S]
  · intro k hk
    constructor
    · intro hkn
      have hi : k - 1 < (components g).length := by
        have : (labelPockets g).2 = (components g).length := rfl
        omega
      obtain ⟨e, hegood, hSe⟩ := hsound _ (List.get_mem (components g) (k - 1) hi)
      refine ⟨e, hegood.1, ?_⟩
      have hmem : e ∈ (components g).get ⟨k - 1, hi⟩ := by
        rw [hSe]; exact self_mem_classOf hegood
      rw [show (labelPockets g).1 = labelOf (components g) from rfl,
        labelOf_eq_of_mem hdisj hi hmem]
      omega
    · rintro ⟨c, _, hck⟩
      obtain ⟨hi, -⟩ := labelOf_pos_mem hk hck
      have : (labelPockets g).2 = (components g).length := rfl
      omega

/-- A concrete 3×1×1 grid with the middle voxel occupied: two pockets. -/
def wgrid2 : VGrid :=
  { nx := 3, ny := 1, nz := 1,
    val := fun c => if c = ((1 : ℕ), (0 : ℕ), (0 : ℕ)) then VoxelState.occupied
      else VoxelState.empty }

theorem claim_C4_witness :
    0 < (labelPockets wgrid2).1 (0, 0, 0) ∧
    (labelPockets wgrid2).1 (1, 0, 0) = 0 := by
  constructor
  · exact ((claim_C4 wgrid2).1 (0, 0, 0) (by decide)).2 (by decide)
  · have h := ((claim_C4 wgrid2).1 (1, 0, 0) (by decide))
    by_contra hne
    exact absurd (h.1 (by omega)) (by decide)

/-! ### Pocket metadata extraction

`PocketService._extract_pocket_info` works from `np.argwhere(labeled == id)`
— the raster-ordered list of voxel indices carrying the label — and computes
count, mean world centre, index-range bounding box and volume. -/

theorem cellsList_nodup (g : VGrid) : (cellsList g).Nodup := by
  unfold cellsList
  refine List.nodup_flatMap.2 ⟨?_, ?_⟩
  · intro x _
    refine List.nodup_flatMap.2 ⟨?_, ?_⟩
    · intro y _
      exact (List.nodup_range _).map (fun a b h => by simpa using h)
    · refine (List.nodup_range _).imp ?_
      intro a b hab p hp1 hp2
      simp only [List.mem_map, List.mem_range] at hp1 hp2
      obtain ⟨z1, -, rfl⟩ := hp1
      obtain ⟨z2, -, he⟩ := hp2
      injection he with h1 h2
      injection h2 with h21 h22
      exact hab h21.symm
  · refine (List.nodup_range _).imp ?_
    intro a b hab p hp1 hp2
    simp only [List.mem_flatMap, List.mem_map, List.mem_range] at hp1 hp2
    obtain ⟨y1, -, z1, -, rfl⟩ := hp1
    obtain ⟨y2, -, z2, -, he⟩ := hp2
    injection he with h1 h2
    exact hab h1.symm

/-- `np.argwhere(labeled == pocket_id)`: the in-range voxels carrying the
label, in raster order. -/
def labelCoords (g : VGrid) (lab : Coord → ℕ) (pid : ℕ) : List Coord :=
  (cellsList g).filter (fun c => decide (lab c = pid))

theorem labelCoords_nodup (g : VGrid) (lab : Coord → ℕ) (pid : ℕ) :
    (labelCoords g lab pid).Nodup :=
  (cellsList_nodup g).filter _

theorem mem_labelCoords {g : VGrid} {lab : Coord → ℕ} {pid : ℕ} {c : Coord} :
    c ∈ labelCoords g lab pid ↔ c ∈ (cells g).filter (fun c => lab c = pid) := by
  simp [labelCoords, List.mem_filter, mem_cellsList, Finset.mem_filter]

theorem labelCoords_toFinset (g : VGrid) (lab : Coord → ℕ) (pid : ℕ) :
    (labelCoords g lab pid).toFinset = (cells g).filter (fun c => lab c = pid) := by
  ext c
  rw [List.mem_toFinset, mem_labelCoords]

/-- `np.min` over a flat list of naturals (reduction over a non-empty array;
the `[]` case is never used by the caller). -/
def listMin : List ℕ → ℕ
  | [] => 0
  | x :: xs => xs.foldl min x

/-- `np.max` over a flat list of naturals. -/
def listMax : List ℕ → ℕ
  | [] => 0
  | x :: xs => xs.foldl max x

theorem foldl_min_le_init : ∀ (xs : List ℕ) (a : ℕ), xs.foldl min a ≤ a := by
  intro xs
  induction xs with
  | nil => simp
  | cons x xs ih =>
      intro a
      have := ih (min a x)
      simp only [List.foldl_cons]
      omega

theorem foldl_min_le_mem :
    ∀ (xs : List ℕ) (a y : ℕ), y ∈ xs → xs.foldl min a ≤ y := by
  intro xs
  induction xs with
  | nil => intro a y hy; exact absurd hy (List.not_mem_nil y)
  | cons x xs ih =>
      intro a y hy
      rcases List.mem_cons.1 hy with rfl | hy
      · have := foldl_min_le_init xs (min a y)
        simp only [List.foldl_cons]
        omega
      · exact ih (min a x) y hy

theorem foldl_min_mem :
    ∀ (xs : List ℕ) (a : ℕ), xs.foldl min a = a ∨ xs.foldl min a ∈ xs := by
  intro xs
  induction xs with
  | nil => intro a; exact Or.inl rfl
  | cons x xs ih =>
      intro a
      simp only [List.foldl_cons]
      rcases ih (min a x) with h | h
      · rcases min_choice a x with hm | hm
        · exact Or.inl (by omega)
        · exact Or.inr (by rw [h, hm]; exact List.mem_cons_self _ _)
      · exact Or.inr (List.mem_cons_of_mem _ h)

theorem foldl_max_ge_init : ∀ (xs : List ℕ) (a : ℕ), a ≤ xs.foldl max a := by
  intro xs
  induction xs with
  | nil => simp
  | cons x xs ih =>
      intro a
      have := ih (max a x)
      simp only [List.foldl_cons]
      omega

theorem foldl_max_ge_mem :
    ∀ (xs : List ℕ) (a y : ℕ), y ∈ xs → y ≤ xs.foldl max a := by
  intro xs
  induction xs with
  | nil => intro a y hy; exact absurd hy (List.not_mem_nil y)
  | cons x xs ih =>
      intro a y hy
      rcases List.mem_cons.1 hy with rfl | hy
      · have := foldl_max_ge_init xs (max a y)
        simp only [List.foldl_cons]
        omega
      · exact ih (max a x) y hy

theorem foldl_max_mem :
    ∀ (xs : List ℕ) (a : ℕ), xs.foldl max a = a ∨ xs.foldl max a ∈ xs := by
  intro xs
  induction xs with
  | nil => intro a; exact Or.inl rfl
  | cons x xs ih =>
      intro a
      simp only [List.foldl_cons]
      rcases ih (max a x) with h | h
      · rcases max_choice a x with hm | hm
        · exact Or.inl (by omega)
        · exact Or.inr (by rw [h, hm]; exact List.mem_cons_self _ _)
      · exact Or.inr (List.mem_cons_of_mem _ h)

theorem listMin_mem {l : List ℕ} (h : l ≠ []) : listMin l ∈ l := by
  match l, h with
  | x :: xs, _ =>
      show xs.foldl min x ∈ x :: xs
      rcases foldl_min_mem xs x with h | h
      · rw [h]; exact List.mem_cons_self _ _
      · exact List.mem_cons_of_mem _ h

theorem listMin_le {l : List ℕ} {y : ℕ} (hy : y ∈ l) : listMin l ≤ y := by
  match l, hy with
  | x :: xs, hy =>
      show xs.foldl min x ≤ y
      rcases List.mem_cons.1 hy with rfl | hy
      · exact foldl_min_le_init xs y
      · exact foldl_min_le_mem xs x y hy

theorem listMax_mem {l : List ℕ} (h : l ≠ []) : listMax l ∈ l := by
  match l, h with
  | x :: xs, _ =>
      show xs.foldl max x ∈ x :: xs
      rcases foldl_max_mem xs x with h | h
      · rw [h]; exact List.mem_cons_self _ _
      · exact List.mem_cons_of_mem _ h

theorem listMax_ge {l : List ℕ} {y : ℕ} (hy : y ∈ l) : y ≤ listMax l := by
  match l, hy with
  | x :: xs, hy =>
      show y ≤ xs.foldl max x
      rcases List.mem_cons.1 hy with rfl | hy
      · exact foldl_max_ge_init xs y
      · exact foldl_max_ge_mem xs x y hy

theorem listMin_eq_min' {l : List ℕ} {F : Finset ℕ} (hne : l ≠ [])
    (hF : ∀ x, x ∈ l ↔ x ∈ F) (h : F.Nonempty) : listMin l = F.min' h :=
  le_antisymm (listMin_le ((hF _).2 (F.min'_mem h)))
    (F.min'_le _ ((hF _).1 (listMin_mem hne)))

theorem listMax_eq_max' {l : List ℕ} {F : Finset ℕ} (hne : l ≠ [])
    (hF : ∀ x, x ∈ l ↔ x ∈ F) (h : F.Nonempty) : listMax l = F.max' h :=
  le_antisymm (F.le_max' _ ((hF _).1 (listMax_mem hne)))
    (listMax_ge ((hF _).2 (F.max'_mem h)))

/-- Pocket descriptor, from `models/pockets.py` (`PocketInfo`). -/
structure PocketInfo where
  pocket_id : ℕ
  voxel_count : ℕ
  centroid : ℚ × ℚ × ℚ
  bounds_low : ℚ × ℚ × ℚ
  bounds_high : ℚ × ℚ × ℚ
  volume_estimate : ℚ
  is_toggled_solid : Bool
deriving DecidableEq, Repr

/-- `PocketService._extract_pocket_info`.  The `ValueError` raised on a label
with no voxels is modelled by `Except.error`.  World coordinates follow the
source: voxel centres at `index * voxel_size + bounds_low + voxel_size / 2`,
box corners at `min_index * voxel_size + bounds_low` and
`(max_index + 1) * voxel_size + bounds_low`. -/
def extractPocketInfo (g : VGrid) (lab : Coord → ℕ) (pid : ℕ) (vs : ℚ)
    (low : ℚ × ℚ × ℚ) : Except String PocketInfo :=
  if (labelCoords g lab pid).length = 0 then
    Except.error "pocket has no voxels"
  else
    Except.ok
      { pocket_id := pid
        voxel_count := (labelCoords g lab pid).length
        centroid :=
          (((labelCoords g lab pid).map
              (fun c => (c.1 : ℚ) * vs + low.1 + vs / 2)).sum /
            ((labelCoords g lab pid).length : ℚ),
           ((labelCoords g lab pid).map
              (fun c => (c.2.1 : ℚ) * vs + low.2.1 + vs / 2)).sum /
            ((labelCoords g lab pid).length : ℚ),
           ((labelCoords g lab pid).map
              (fun c => (c.2.2 : ℚ) * vs + low.2.2 + vs / 2)).sum /
            ((labelCoords g lab pid).length : ℚ))
        bounds_low :=
          ((listMin ((labelCoords g lab pid).map (fun c => c.1)) : ℚ) * vs + low.1,
           (listMin ((labelCoords g lab pid).map (fun c => c.2.1)) : ℚ) * vs + low.2.1,
           (listMin ((labelCoords g lab pid).map (fun c => c.2.2)) : ℚ) * vs + low.2.2)
        bounds_high :=
          (((listMax ((labelCoords g lab pid).map (fun c => c.1)) : ℚ) + 1) * vs + low.1,
           ((listMax ((labelCoords g lab pid).map (fun c => c.2.1)) : ℚ) + 1) * vs + low.2.1,
           ((listMax ((labelCoords g lab pid).map (fun c => c.2.2)) : ℚ) + 1) * vs + low.2.2)
        volume_estimate := ((labelCoords g lab pid).length : ℚ) * vs ^ 3
        is_toggled_solid := false }

/-- C5: for every labelled grid and label present in it,
`_extract_pocket_info` returns the voxel count of the label, the mean of the
labelled voxels' centre world coordinates, the bounding box from the
elementwise min index and max index + 1 converted to world coordinates, and
`voxel_count * voxel_size ^ 3` as the volume estimate. -/
theorem claim_C5 (g : VGrid) (lab : Coord → ℕ) (pid : ℕ) (vs : ℚ)
    (low : ℚ × ℚ × ℚ)
    (h : ((cells g).filter (fun c => lab c = pid)).Nonempty) :
    extractPocketInfo g lab pid vs low = Except.ok
      { pocket_id := pid
        voxel_count := ((cells g).filter (fun c => lab c = pid)).card
        centroid :=
          ((∑ c ∈ (cells g).filter (fun c => lab c = pid),
              ((c.1 : ℚ) * vs + low.1 + vs / 2)) /
            (((cells g).filter (fun c => lab c = pid)).card : ℚ),
           (∑ c ∈ (cells g).filter (fun c => lab c = pid),
              ((c.2.1 : ℚ) * vs + low.2.1 + vs / 2)) /
            (((cells g).filter (fun c => lab c = pid)).card : ℚ),
           (∑ c ∈ (cells g).filter (fun c => lab c = pid),
              ((c.2.2 : ℚ) * vs + low.2.2 + vs / 2)) /
            (((cells g).filter (fun c => lab c = pid)).card : ℚ))
        bounds_low :=
          (((((cells g).filter (fun c => lab c = pid)).image
              (fun c => c.1)).min' (h.image _) * vs + low.1 : ℚ),
           ((((cells g).filter (fun c => lab c = pid)).image
              (fun c => c.2.1)).min' (h.image _) * vs + low.2.1 : ℚ),
           ((((cells g).filter (fun c => lab c = pid)).image
              (fun c => c.2.2)).min' (h.image _) * vs + low.2.2 : ℚ))
        bounds_high :=
          ((((((cells g).filter (fun c => lab c = pid)).image
              (fun c => c.1)).max' (h.image _) + 1) * vs + low.1 : ℚ),
           (((((cells g).filter (fun c => lab c = pid)).image
              (fun c => c.2.1)).max' (h.image _) + 1) * vs + low.2.1 : ℚ),
           (((((cells g).filter (fun c => lab c = pid)).image
              (fun c => c.2.2)).max' (h.image _) + 1) * vs + low.2.2 : ℚ))
        volume_estimate :=
          (((cells g).filter (fun c => lab c = pid)).card : ℚ) * vs ^ 3
        is_toggled_solid := false } := by
  have htf := labelCoords_toFinset g lab pid
  have hnodup := labelCoords_nodup g lab pid
  have hlen : (labelCoords g lab pid).length =
      ((cells g).filter (fun c => lab c = pid)).card := by
    rw [← htf]
    exact (List.toFinset_card_of_nodup hnodup).symm
  have hne : ¬((labelCoords g lab pid).length = 0) := by
    rw [hlen]
    have := Finset.card_pos.2 h
    omega
  have hnn : labelCoords g lab pid ≠ [] := by
    intro hnil
    rw [hnil] at hne
    exact hne rfl
  have hmemQ : ∀ f : Coord → ℕ, ∀ x,
      x ∈ (labelCoords g lab pid).map f ↔
        x ∈ ((cells g).filter (fun c => lab c = pid)).image f := by
    intro f x
    simp only [List.mem_map, Finset.mem_image]
    constructor
    · rintro ⟨c, hc, rfl⟩
      exact ⟨c, mem_labelCoords.1 hc, rfl⟩
    · rintro ⟨c, hc, rfl⟩
      exact ⟨c, mem_labelCoords.2 hc, rfl⟩
  have hmapne : ∀ f : Coord → ℕ, (labelCoords g lab pid).map f ≠ [] := by
    intro f hnil
    exact hnn (List.map_eq_nil_iff.1 hnil)
  have hsum : ∀ f : Coord → ℚ,
      ((labelCoords g lab pid).map f).sum =
        ∑ c ∈ (cells g).filter (fun c => lab c = pid), f c := by
    intro f
    rw [← htf]
    exact (List.sum_toFinset f hnodup).symm
  have hmin : ∀ f : Coord → ℕ,
      listMin ((labelCoords g lab pid).map f) =
        (((cells g).filter (fun c => lab c = pid)).image f).min' (h.image f) := by
    intro f
    exact listMin_eq_min' (hmapne f) (hmemQ f) (h.image f)
  have hmax : ∀ f : Coord → ℕ,
      listMax ((labelCoords g lab pid).map f) =
        (((cells g).filter (fun c => lab c = pid)).image f).max' (h.image f) := by
    intro f
    exact listMax_eq_max' (hmapne f) (hmemQ f) (h.image f)
  unfold extractPocketInfo
  rw [if_neg hne]
  refine congrArg Except.ok ?_
  simp only [hlen, hsum, hmin, hmax]

/-- The grid shape for the C5 witness: a 1×1×1 label array whose single
voxel carries label 1. -/
def gC5 : VGrid :=
  { nx := 1, ny := 1, nz := 1, val := fun _ => VoxelState.empty }

theorem claim_C5_witness :
    extractPocketInfo gC5 (fun _ => 1) 1 1 (0, 0, 0) = Except.ok
      { pocket_id := 1
        voxel_count := 1
        centroid := (1 / 2, 1 / 2, 1 / 2)
        bounds_low := (0, 0, 0)
        bounds_high := (1, 1, 1)
        volume_estimate := 1
        is_toggled_solid := false } := by
  rw [claim_C5 gC5 (fun _ => 1) 1 1 (0, 0, 0) (by decide)]
  have hc : cells gC5 = ({((0 : ℕ), (0 : ℕ), (0 : ℕ))} : Finset Coord) := by decide
  refine congrArg Except.ok ?_
  simp only [PocketInfo.mk.injEq, Prod.mk.injEq]
  norm_num [hc]

/-- A concrete 2×1×1 grid with the voxel `(1,0,0)` occupied. -/
def wgrid1 : VGrid :=
  { nx := 2, ny := 1, nz := 1,
    val := fun c => if c = ((1 : ℕ), (0 : ℕ), (0 : ℕ)) then VoxelState.occupied
      else VoxelState.empty }

theorem claim_C1_witness :
    (floodFillOutside wgrid1).val (0, 0, 0) = VoxelState.outside ∧
    (floodFillOutside wgrid1).val (1, 0, 0) = VoxelState.occupied := by
  constructor
  · exact ((claim_C1 wgrid1).1 (0, 0, 0) (by decide)).1
      ⟨by decide, (0, 0, 0), by decide, Relation.ReflTransGen.refl⟩
  · exact ((claim_C1 wgrid1).1 (1, 0, 0) (by decide)).2.2 (by decide)

/-! ### Voxel size selection (`compute_voxel_resolution`) -/

/-- `PocketService.compute_voxel_resolution`: the longest bbox extent
(`np.max` of the componentwise extent) divided by the target number of
voxels, raised to the configured minimum voxel size. -/
def computeVoxelResolution (bl bh : ℚ × ℚ × ℚ) (target : ℕ) (minVs : ℚ) : ℚ :=
  max (max (bh.1 - bl.1) (max (bh.2.1 - bl.2.1) (bh.2.2 - bl.2.2)) / target) minVs

/-- C7: for every bbox with `low ≤ high` elementwise, positive target and
positive minimum, `compute_voxel_resolution` returns
`max(longest_extent / target, min_voxel_size)` (so it is an upper bound of
both and coincides with one of them), and on a degenerate bbox with
`low = high` it returns the minimum voxel size — with no division by zero. -/
theorem claim_C7 (bl bh : ℚ × ℚ × ℚ) (target : ℕ) (minVs : ℚ)
    (hle : bl.1 ≤ bh.1 ∧ bl.2.1 ≤ bh.2.1 ∧ bl.2.2 ≤ bh.2.2)
    (htarget : 0 < target) (hmin : 0 < minVs) :
    computeVoxelResolution bl bh target minVs =
      max (max (bh.1 - bl.1) (max (bh.2.1 - bl.2.1) (bh.2.2 - bl.2.2)) / target)
        minVs ∧
    minVs ≤ computeVoxelResolution bl bh target minVs ∧
    max (bh.1 - bl.1) (max (bh.2.1 - bl.2.1) (bh.2.2 - bl.2.2)) / target ≤
      computeVoxelResolution bl bh target minVs ∧
    (bl = bh → computeVoxelResolution bl bh target minVs = minVs) := by
  refine ⟨rfl, le_max_right _ _, le_max_left _ _, ?_⟩
  intro h
  subst h
  show max (max (bl.1 - bl.1) (max (bl.2.1 - bl.2.1) (bl.2.2 - bl.2.2)) / target)
      minVs = minVs
  rw [sub_self, sub_self, sub_self, max_self, max_self, zero_div]
  exact max_eq_right hmin.le

theorem claim_C7_witness :
    computeVoxelResolution (0, 0, 0) (0, 0, 0) 10 (1 / 100) = 1 / 100 :=
  (claim_C7 (0, 0, 0) (0, 0, 0) 10 (1 / 100)
    (by norm_num) (by norm_num) (by norm_num)).2.2.2 rfl

/-! ### Occupancy grid construction (`_build_occupancy_grid`)

Resolution is `ceil(extent / voxel_size)` per axis clamped to the per-axis
maximum; points are binned by `astype(int)` truncation of
`(point - low) / voxel_size` and clamped with `np.clip(·, 0, res - 1)`;
marked voxels are then grown by `dilation` iterations of 6-connected binary
dilation.  Numpy raises when a resolution axis is non-positive and points
must be written (`np.full` rejects negative dims; fancy indexing into a
zero-sized axis raises `IndexError`); both abort paths are modelled by
`Except.error`. -/

/-- `astype(int)` on a float: truncation toward zero. -/
def truncQ (q : ℚ) : ℤ := if 0 ≤ q then ⌊q⌋ else -⌊-q⌋

/-- `np.clip(i, lo, hi)` (the upper bound is applied after the lower one,
so `hi < lo` yields `hi`). -/
def clipZ (i lo hi : ℤ) : ℤ := min (max i lo) hi

/-- One iteration of the unmasked 6-connected `binary_dilation` inside the
array bounds `cs`. -/
def dilateStep (cs : Finset Coord) (S : Finset Coord) : Finset Coord :=
  S ∪ cs.filter (fun c => ∃ d ∈ S, adj d c)

/-- The voxel index a point is binned to (per axis:
`clip(trunc((p - low) / voxel_size), 0, res - 1)`). -/
def binPoint (p bl : ℚ × ℚ × ℚ) (vs : ℚ) (rx ry rz : ℤ) : Coord :=
  ((clipZ (truncQ ((p.1 - bl.1) / vs)) 0 (rx - 1)).toNat,
   (clipZ (truncQ ((p.2.1 - bl.2.1) / vs)) 0 (ry - 1)).toNat,
   (clipZ (truncQ ((p.2.2 - bl.2.2) / vs)) 0 (rz - 1)).toNat)

/-- `PocketService._build_occupancy_grid`. -/
def buildOccupancyGrid (pts : List (ℚ × ℚ × ℚ)) (bl bh : ℚ × ℚ × ℚ) (vs : ℚ)
    (dilation : ℕ) (maxRes : ℕ) : Except String VGrid :=
  let rx : ℤ := min ⌈(bh.1 - bl.1) / vs⌉ (maxRes : ℤ)
  let ry : ℤ := min ⌈(bh.2.1 - bl.2.1) / vs⌉ (maxRes : ℤ)
  let rz : ℤ := min ⌈(bh.2.2 - bl.2.2) / vs⌉ (maxRes : ℤ)
  if rx < 0 ∨ ry < 0 ∨ rz < 0 then
    Except.error "negative dimensions are not allowed"
  else if ¬pts.isEmpty ∧ (rx = 0 ∨ ry = 0 ∨ rz = 0) then
    Except.error "index out of bounds"
  else
    let cs : Finset Coord :=
      Finset.range rx.toNat ×ˢ (Finset.range ry.toNat ×ˢ Finset.range rz.toNat)
    let base : Finset Coord := (pts.map (fun p => binPoint p bl vs rx ry rz)).toFinset
    let occ := (dilateStep cs)^[dilation] base
    Except.ok
      { nx := rx.toNat, ny := ry.toNat, nz := rz.toNat,
        val := fun c => if c ∈ occ then VoxelState.occupied else VoxelState.empty }

/-- Whatever the build produces, every voxel is EMPTY or OCCUPIED. -/
theorem buildOccupancyGrid_states {pts bl bh vs dilation maxRes g}
    (h : buildOccupancyGrid pts bl bh vs dilation maxRes = Except.ok g) :
    ∀ c, g.val c = VoxelState.empty ∨ g.val c = VoxelState.occupied := by
  simp only [buildOccupancyGrid] at h
  split at h
  · exact absurd h (by simp)
  · split at h
    · exact absurd h (by simp)
    · intro c
      cases h
      dsimp only
      split
      · exact Or.inr rfl
      · exact Or.inl rfl

/-! ### The pocket analysis pipeline (`analyze_pockets`) -/

/-- Grid metadata, from `models/pockets.py` (`VoxelGridMetadata`). -/
structure VoxelGridMetadata where
  resolution : ℕ × ℕ × ℕ
  voxel_size : ℚ
  bounds_low : ℚ × ℚ × ℚ
  bounds_high : ℚ × ℚ × ℚ
  occupied_count : ℕ
  empty_count : ℕ
  outside_count : ℕ
  pocket_count : ℕ

/-- Analysis result, from `models/pockets.py` (`PocketAnalysis`); the
timestamp is an abstract instant. -/
structure PocketAnalysis where
  grid_metadata : VoxelGridMetadata
  pockets : List PocketInfo
  computed_at : ℕ

/-- The persisted `grid.npz` artifact written by `_save_analysis`. -/
structure GridArtifact where
  grid : VGrid
  labeled : Coord → ℕ
  voxel_size : ℚ
  bounds_low : ℚ × ℚ × ℚ

/-- The report loop of `analyze_pockets`: for each label `1..n` whose voxel
count (`np.sum(labeled == pid)`) reaches the minimum, extract its info; an
extraction error aborts the run. -/
def collectPocketsAux (g : VGrid) (lab : Coord → ℕ) (minVoxels : ℕ) (vs : ℚ)
    (low : ℚ × ℚ × ℚ) :
    List ℕ → List PocketInfo → Except String (List PocketInfo)
  | [], acc => Except.ok acc
  | pid :: rest, acc =>
      if minVoxels ≤ ((cells g).filter (fun c => lab c = pid)).card then
        match extractPocketInfo g lab pid vs low with
        | Except.ok info =>
            collectPocketsAux g lab minVoxels vs low rest (acc ++ [info])
        | Except.error e => Except.error e
      else collectPocketsAux g lab minVoxels vs low rest acc

def collectPockets (g : VGrid) (lab : Coord → ℕ) (n minVoxels : ℕ) (vs : ℚ)
    (low : ℚ × ℚ × ℚ) : Except String (List PocketInfo) :=
  collectPocketsAux g lab minVoxels vs low (List.range' 1 n) []

/-- `xyz.min(axis=0)` over a non-empty point list (the `[]` case is
unreachable: the pipeline errors out first). -/
def boundsLow3 : List (ℚ × ℚ × ℚ) → ℚ × ℚ × ℚ
  | [] => (0, 0, 0)
  | p :: rest =>
      rest.foldl (fun a q => (min a.1 q.1, min a.2.1 q.2.1, min a.2.2 q.2.2)) p

/-- `xyz.max(axis=0)` over a non-empty point list. -/
def boundsHigh3 : List (ℚ × ℚ × ℚ) → ℚ × ℚ × ℚ
  | [] => (0, 0, 0)
  | p :: rest =>
      rest.foldl (fun a q => (max a.1 q.1, max a.2.1 q.2.1, max a.2.2 q.2.2)) p

/-- The voxel size `analyze_pockets` chooses. -/
def pipelineVs (pts : List (ℚ × ℚ × ℚ)) (voxelTarget : ℕ) (minVs : ℚ) : ℚ :=
  computeVoxelResolution (boundsLow3 pts) (boundsHigh3 pts) voxelTarget minVs

/-- The grid statistics `analyze_pockets` assembles
(`np.sum(grid == state)` for the three states). -/
def mkMetadata (g : VGrid) (vs : ℚ) (bl bh : ℚ × ℚ × ℚ) (pocketCount : ℕ) :
    VoxelGridMetadata :=
  { resolution := (g.nx, g.ny, g.nz)
    voxel_size := vs
    bounds_low := bl
    bounds_high := bh
    occupied_count :=
      ((cells g).filter (fun c => g.val c = VoxelState.occupied)).card
    empty_count :=
      ((cells g).filter (fun c => g.val c = VoxelState.empty)).card
    outside_count :=
      ((cells g).filter (fun c => g.val c = VoxelState.outside)).card
    pocket_count := pocketCount }

/-- The computation path of `analyze_pockets` after the cache check: bounds,
voxel size, occupancy grid, flood fill, labelling, report filtering,
statistics.  The returned artifact is what `_save_analysis` persists in
`grid.npz` (the flood-filled grid and the unfiltered label array). -/
def analyzePipeline (pts : List (ℚ × ℚ × ℚ)) (voxelTarget : ℕ) (minVs : ℚ)
    (dilation maxRes minVoxels : ℕ) (now : ℕ) :
    Except String (PocketAnalysis × GridArtifact) :=
  if pts.isEmpty then Except.error "zero-size array reduction"
  else
    match buildOccupancyGrid pts (boundsLow3 pts) (boundsHigh3 pts)
        (pipelineVs pts voxelTarget minVs) dilation maxRes with
    | Except.error e => Except.error e
    | Except.ok g0 =>
        match collectPockets (floodFillOutside g0)
            (labelPockets (floodFillOutside g0)).1
            (labelPockets (floodFillOutside g0)).2 minVoxels
            (pipelineVs pts voxelTarget minVs) (boundsLow3 pts) with
        | Except.error e => Except.error e
        | Except.ok pockets =>
            Except.ok
              ({ grid_metadata := mkMetadata (floodFillOutside g0)
                    (pipelineVs pts voxelTarget minVs) (boundsLow3 pts)
                    (boundsHigh3 pts) pockets.length
                 pockets := pockets
                 computed_at := now },
               { grid := floodFillOutside g0
                 labeled := (labelPockets (floodFillOutside g0)).1
                 voxel_size := pipelineVs pts voxelTarget minVs
                 bounds_low := boundsLow3 pts })

/-- Per-project state seen by the service: the uploaded point cloud and the
pocket cache (`analysis.json` + `grid.npz`). -/
structure Store where
  points : Option (List (ℚ × ℚ × ℚ))
  analysisCache : Option PocketAnalysis
  gridCache : Option GridArtifact

/-- `PocketService.get_cached_analysis`. -/
def getCachedAnalysis (st : Store) : Option PocketAnalysis := st.analysisCache

/-- The non-cached path of `analyze_pockets`: load points (`ValueError` when
absent), run the pipeline and overwrite both cached artifacts.  The `Bool`
component records that the pipeline ran. -/
def analyzeFull (st : Store) (voxelTarget : ℕ) (minVs : ℚ)
    (dilation maxRes minVoxels now : ℕ) :
    Except String (PocketAnalysis × Store × Bool) :=
  match st.points with
  | none => Except.error "No point cloud for project"
  | some pts =>
      match analyzePipeline pts voxelTarget minVs dilation maxRes minVoxels now with
      | Except.error e => Except.error e
      | Except.ok (analysis, artifact) =>
          Except.ok (analysis,
            { st with analysisCache := some analysis, gridCache := some artifact },
            true)

/-- `PocketService.analyze_pockets`: consult the cache unless `recompute`,
otherwise run the full pipeline. -/
def analyzePockets (st : Store) (recompute : Bool) (voxelTarget : ℕ)
    (minVs : ℚ) (dilation maxRes minVoxels now : ℕ) :
    Except String (PocketAnalysis × Store × Bool) :=
  if recompute = false then
    match getCachedAnalysis st with
    | some cached => Except.ok (cached, st, false)
    | none => analyzeFull st voxelTarget minVs dilation maxRes minVoxels now
  else analyzeFull st voxelTarget minVs dilation maxRes minVoxels now

/-- C9: `analyze(recompute=false)` returns the cached analysis when present,
without running the pipeline and without modifying the store;
`analyze(recompute=true)` always runs the full pipeline — whatever the cache
holds — and overwrites the cache with the freshly computed analysis, whose
timestamp is the current instant, even if it is numerically identical to the
cached one. -/
theorem claim_C9 (st : Store) (voxelTarget : ℕ) (minVs : ℚ)
    (dilation maxRes minVoxels now : ℕ) :
    (∀ a, st.analysisCache = some a →
      analyzePockets st false voxelTarget minVs dilation maxRes minVoxels now =
        Except.ok (a, st, false)) ∧
    (∀ pts, st.points = some pts →
      analyzePockets st true voxelTarget minVs dilation maxRes minVoxels now =
        match analyzePipeline pts voxelTarget minVs dilation maxRes minVoxels
            now with
        | Except.error e => Except.error e
        | Except.ok (analysis, artifact) =>
            Except.ok (analysis,
              { st with analysisCache := some analysis,
                        gridCache := some artifact }, true)) ∧
    (∀ pts analysis artifact,
      analyzePipeline pts voxelTarget minVs dilation maxRes minVoxels now =
        Except.ok (analysis, artifact) →
      analysis.computed_at = now) := by
  refine ⟨?_, ?_, ?_⟩
  · intro a ha
    simp [analyzePockets, getCachedAnalysis, ha]
  · intro pts hpts
    simp [analyzePockets, analyzeFull, hpts]
  · intro pts analysis artifact h
    simp only [analyzePipeline] at h
    split at h
    · exact absurd h (by simp)
    · split at h
      · exact absurd h (by simp)
      · split at h
        · exact absurd h (by simp)
        · simp only [Except.ok.injEq, Prod.mk.injEq] at h
          rw [← h.1]

/-- A cached analysis for the C9 witness. -/
def anW0 : PocketAnalysis :=
  { grid_metadata :=
      { resolution := (0, 0, 0), voxel_size := 1, bounds_low := (0, 0, 0),
        bounds_high := (0, 0, 0), occupied_count := 0, empty_count := 0,
        outside_count := 0, pocket_count := 0 }
    pockets := []
    computed_at := 3 }

/-- A store holding that cached analysis. -/
def stW : Store :=
  { points := none, analysisCache := some anW0, gridCache := none }

theorem claim_C9_witness :
    analyzePockets stW false 1 1 0 4 1 5 = Except.ok (anW0, stW, false) :=
  (claim_C9 stW 1 1 0 4 1 5).1 anW0 rfl

/-! ### Report-level filtering and grid-state invariants -/

theorem labelPockets_label_used (g : VGrid) {k : ℕ} (hk : 1 ≤ k)
    (hkn : k ≤ (labelPockets g).2) :
    ∃ c ∈ cells g, (labelPockets g).1 c = k := by
  have hsound := components_sound g
  have hdisj := components_disjoint g
  have hi : k - 1 < (components g).length := by
    have : (labelPockets g).2 = (components g).length := rfl
    omega
  obtain ⟨e, hegood, hSe⟩ := hsound _ (List.get_mem (components g) (k - 1) hi)
  refine ⟨e, hegood.1, ?_⟩
  have hmem : e ∈ (components g).get ⟨k - 1, hi⟩ := by
    rw [hSe]; exact self_mem_classOf hegood
  rw [show (labelPockets g).1 = labelOf (components g) from rfl,
    labelOf_eq_of_mem hdisj hi hmem]
  omega

theorem labelCoords_length (g : VGrid) (lab : Coord → ℕ) (pid : ℕ) :
    (labelCoords g lab pid).length =
      ((cells g).filter (fun c => lab c = pid)).card := by
  rw [← labelCoords_toFinset g lab pid]
  exact (List.toFinset_card_of_nodup (labelCoords_nodup g lab pid)).symm

theorem extractPocketInfo_ok_id {g : VGrid} {lab : Coord → ℕ}
    {pid : ℕ} {vs : ℚ} {low : ℚ × ℚ × ℚ} {info : PocketInfo}
    (h : extractPocketInfo g lab pid vs low = Except.ok info) :
    info.pocket_id = pid := by
  unfold extractPocketInfo at h
  split at h
  · exact absurd h (by simp)
  · simp only [Except.ok.injEq] at h
    rw [← h]

theorem extractPocketInfo_ok_of_nonempty {g : VGrid} {lab : Coord → ℕ}
    {pid : ℕ} (vs : ℚ) (low : ℚ × ℚ × ℚ)
    (h : ((cells g).filter (fun c => lab c = pid)).Nonempty) :
    ∃ info, extractPocketInfo g lab pid vs low = Except.ok info := by
  unfold extractPocketInfo
  rw [if_neg]
  · exact ⟨_, rfl⟩
  · rw [labelCoords_length g lab pid]
    have := Finset.card_pos.2 h
    omega

theorem collectPocketsAux_spec (g : VGrid) (lab : Coord → ℕ) (mv : ℕ)
    (vs : ℚ) (low : ℚ × ℚ × ℚ) :
    ∀ (l : List ℕ) (acc : List PocketInfo),
      (∀ pid ∈ l, ((cells g).filter (fun c => lab c = pid)).Nonempty) →
      ∃ L, collectPocketsAux g lab mv vs low l acc = Except.ok L ∧
        ∀ p, p ∈ L ↔ p ∈ acc ∨ ∃ pid ∈ l,
          mv ≤ ((cells g).filter (fun c => lab c = pid)).card ∧
          extractPocketInfo g lab pid vs low = Except.ok p := by
  intro l
  induction l with
  | nil =>
      intro acc _
      exact ⟨acc, rfl, fun p => by simp⟩
  | cons pid rest ih =>
      intro acc hne
      unfold collectPocketsAux
      by_cases hmv : mv ≤ ((cells g).filter (fun c => lab c = pid)).card
      · rw [if_pos hmv]
        obtain ⟨info, hinfo⟩ := extractPocketInfo_ok_of_nonempty vs low
          (hne pid (List.mem_cons_self _ _))
        rw [hinfo]
        obtain ⟨L, hL, hmem⟩ :=
          ih (acc ++ [info]) (fun q hq => hne q (List.mem_cons_of_mem _ hq))
        refine ⟨L, hL, ?_⟩
        intro p
        rw [hmem p]
        constructor
        · rintro (hp | hp)
          · rcases List.mem_append.1 hp with hp | hp
            · exact Or.inl hp
            · have : p = info := by simpa using hp
              subst this
              exact Or.inr ⟨pid, List.mem_cons_self _ _, hmv, hinfo⟩
          · obtain ⟨q, hq, hcard, hex⟩ := hp
            exact Or.inr ⟨q, List.mem_cons_of_mem _ hq, hcard, hex⟩
        · rintro (hp | hp)
          · exact Or.inl (List.mem_append_left _ hp)
          · obtain ⟨q, hq, hcard, hex⟩ := hp
            rcases List.mem_cons.1 hq with rfl | hq
            · have : info = p := by
                rw [hinfo] at hex
                simpa using hex
              exact Or.inl (List.mem_append_right _ (by simp [this]))
            · exact Or.inr ⟨q, hq, hcard, hex⟩
      · rw [if_neg hmv]
        obtain ⟨L, hL, hmem⟩ :=
          ih acc (fun q hq => hne q (List.mem_cons_of_mem _ hq))
        refine ⟨L, hL, ?_⟩
        intro p
        rw [hmem p]
        constructor
        · rintro (hp | hp)
          · exact Or.inl hp
          · obtain ⟨q, hq, hcard, hex⟩ := hp
            exact Or.inr ⟨q, List.mem_cons_of_mem _ hq, hcard, hex⟩
        · rintro (hp | hp)
          · exact Or.inl hp
          · obtain ⟨q, hq, hcard, hex⟩ := hp
            rcases List.mem_cons.1 hq with rfl | hq
            · exact absurd hcard hmv
            · exact Or.inr ⟨q, hq, hcard, hex⟩

theorem collectPockets_spec (g : VGrid) (lab : Coord → ℕ) (n mv : ℕ)
    (vs : ℚ) (low : ℚ × ℚ × ℚ)
    (hne : ∀ pid, 1 ≤ pid → pid ≤ n →
      ((cells g).filter (fun c => lab c = pid)).Nonempty) :
    ∃ L, collectPockets g lab n mv vs low = Except.ok L ∧
      ∀ p, p ∈ L ↔ ∃ pid, 1 ≤ pid ∧ pid ≤ n ∧
        mv ≤ ((cells g).filter (fun c => lab c = pid)).card ∧
        extractPocketInfo g lab pid vs low = Except.ok p := by
  obtain ⟨L, hL, hmem⟩ := collectPocketsAux_spec g lab mv vs low
    (List.range' 1 n) []
    (fun pid hpid => by
      have := List.mem_range'_1.1 hpid
      exact hne pid (by omega) (by omega))
  refine ⟨L, hL, ?_⟩
  intro p
  rw [hmem p]
  simp only [List.not_mem_nil, false_or]
  constructor
  · rintro ⟨pid, hpid, hcard, hex⟩
    have := List.mem_range'_1.1 hpid
    exact ⟨pid, by omega, by omega, hcard, hex⟩
  · rintro ⟨pid, h1, h2, hcard, hex⟩
    exact ⟨pid, List.mem_range'_1.2 ⟨by omega, by omega⟩, hcard, hex⟩

/-- C6: in every successful analysis run, a label whose voxel count is below
the configured minimum is omitted from the reported pocket list (a label is
reported iff it is one of the labels `1..count` and reaches the minimum),
while the persisted label array is exactly the labelling output — so the
voxels of a dropped pocket still carry their label in the persisted grid. -/
theorem claim_C6 (pts : List (ℚ × ℚ × ℚ)) (voxelTarget : ℕ) (minVs : ℚ)
    (dilation maxRes minVoxels now : ℕ)
    (analysis : PocketAnalysis) (artifact : GridArtifact)
    (h : analyzePipeline pts voxelTarget minVs dilation maxRes minVoxels now =
      Except.ok (analysis, artifact)) :
    artifact.labeled = (labelPockets artifact.grid).1 ∧
    (∀ pid, (∃ p ∈ analysis.pockets, p.pocket_id = pid) ↔
      (1 ≤ pid ∧ pid ≤ (labelPockets artifact.grid).2 ∧
        minVoxels ≤
          ((cells artifact.grid).filter
            (fun c => artifact.labeled c = pid)).card)) ∧
    (∀ pid, 1 ≤ pid → pid ≤ (labelPockets artifact.grid).2 →
      ((cells artifact.grid).filter
        (fun c => artifact.labeled c = pid)).card < minVoxels →
      (∀ p ∈ analysis.pockets, p.pocket_id ≠ pid) ∧
      ∃ c ∈ cells artifact.grid, artifact.labeled c = pid) := by
  simp only [analyzePipeline] at h
  split at h
  · exact absurd h (by simp)
  · split at h
    · exact absurd h (by simp)
    · rename_i g0 hbuild
      split at h
      · exact absurd h (by simp)
      · rename_i pockets hcollect
        simp only [Except.ok.injEq, Prod.mk.injEq] at h
        obtain ⟨han, hart⟩ := h
        subst han
        subst hart
        dsimp only
        have hused : ∀ pid, 1 ≤ pid →
            pid ≤ (labelPockets (floodFillOutside g0)).2 →
            ((cells (floodFillOutside g0)).filter
              (fun c => (labelPockets (floodFillOutside g0)).1 c = pid)).Nonempty := by
          intro pid h1 h2
          obtain ⟨c, hc, hlab⟩ := labelPockets_label_used (floodFillOutside g0) h1 h2
          exact ⟨c, Finset.mem_filter.2 ⟨hc, hlab⟩⟩
        obtain ⟨L, hL, hmem⟩ := collectPockets_spec (floodFillOutside g0)
          (labelPockets (floodFillOutside g0)).1
          (labelPockets (floodFillOutside g0)).2 minVoxels
          (pipelineVs pts voxelTarget minVs) (boundsLow3 pts) hused
        have hLp : pockets = L := by
          rw [hcollect] at hL
          simpa using hL
        subst hLp
        refine ⟨rfl, ?_, ?_⟩
        · intro pid
          constructor
          · rintro ⟨p, hp, rfl⟩
            obtain ⟨q, h1, h2, hcard, hex⟩ := (hmem p).1 hp
            have := extractPocketInfo_ok_id hex
            rw [this]
            exact ⟨h1, h2, hcard⟩
          · rintro ⟨h1, h2, hcard⟩
            obtain ⟨info, hinfo⟩ := extractPocketInfo_ok_of_nonempty
              (pipelineVs pts voxelTarget minVs) (boundsLow3 pts)
              (hused pid h1 h2)
            refine ⟨info, (hmem info).2 ⟨pid, h1, h2, hcard, hinfo⟩, ?_⟩
            exact extractPocketInfo_ok_id hinfo
        · intro pid h1 h2 hlt
          constructor
          · intro p hp hpid
            obtain ⟨q, hq1, hq2, hcard, hex⟩ := (hmem p).1 hp
            have := extractPocketInfo_ok_id hex
            rw [hpid] at this
            subst this
            omega
          · obtain ⟨c, hc, hlab⟩ :=
              labelPockets_label_used (floodFillOutside g0) h1 h2
            exact ⟨c, hc, hlab⟩

theorem floodFillOutside_states (g0 : VGrid)
    (h0 : ∀ c, g0.val c = VoxelState.empty ∨ g0.val c = VoxelState.occupied) :
    ∀ c, (floodFillOutside g0).val c = VoxelState.empty ∨
      (floodFillOutside g0).val c = VoxelState.occupied ∨
      (floodFillOutside g0).val c = VoxelState.outside := by
  intro c
  unfold floodFillOutside
  dsimp only
  split
  · exact Or.inr (Or.inr rfl)
  · rcases h0 c with h | h
    · exact Or.inl h
    · exact Or.inr (Or.inl h)

theorem tri_count (g : VGrid)
    (h3 : ∀ c ∈ cells g, g.val c = VoxelState.empty ∨
      g.val c = VoxelState.occupied ∨ g.val c = VoxelState.outside) :
    ((cells g).filter (fun c => g.val c = VoxelState.occupied)).card +
      ((cells g).filter (fun c => g.val c = VoxelState.empty)).card +
      ((cells g).filter (fun c => g.val c = VoxelState.outside)).card =
    g.nx * g.ny * g.nz := by
  have hpart := Finset.filter_card_add_filter_neg_card_eq_card
    (s := cells g) (p := fun c => g.val c = VoxelState.occupied)
  have hpart2 := Finset.filter_card_add_filter_neg_card_eq_card
    (s := (cells g).filter (fun c => ¬g.val c = VoxelState.occupied))
    (p := fun c => g.val c = VoxelState.empty)
  have he : ((cells g).filter (fun c => ¬g.val c = VoxelState.occupied)).filter
      (fun c => g.val c = VoxelState.empty) =
      (cells g).filter (fun c => g.val c = VoxelState.empty) := by
    rw [Finset.filter_filter]
    apply Finset.filter_congr
    intro c _
    constructor
    · exact fun hc => hc.2
    · intro hcv
      refine ⟨?_, hcv⟩
      rw [hcv]
      decide
  have ho : ((cells g).filter (fun c => ¬g.val c = VoxelState.occupied)).filter
      (fun c => ¬g.val c = VoxelState.empty) =
      (cells g).filter (fun c => g.val c = VoxelState.outside) := by
    rw [Finset.filter_filter]
    apply Finset.filter_congr
    intro c hc
    constructor
    · rintro ⟨hnocc, hnemp⟩
      rcases h3 c hc with h | h | h
      · exact absurd h hnemp
      · exact absurd h hnocc
      · exact h
    · intro hcv
      refine ⟨?_, ?_⟩ <;> rw [hcv] <;> decide
  have hcard : (cells g).card = g.nx * g.ny * g.nz := by
    unfold cells
    rw [Finset.card_product, Finset.card_product]
    simp [Nat.mul_assoc]
  rw [he, ho] at hpart2
  omega

/-- C10: after every successful analysis run, every voxel of the persisted
grid holds one of the three states EMPTY, OCCUPIED or OUTSIDE (UNKNOWN and
POCKET are never written; pocket membership lives only in the label array),
and the reported `occupied + empty + outside` counts sum to the product of
the three resolution components. -/
theorem claim_C10 (pts : List (ℚ × ℚ × ℚ)) (voxelTarget : ℕ) (minVs : ℚ)
    (dilation maxRes minVoxels now : ℕ)
    (analysis : PocketAnalysis) (artifact : GridArtifact)
    (h : analyzePipeline pts voxelTarget minVs dilation maxRes minVoxels now =
      Except.ok (analysis, artifact)) :
    (∀ c ∈ cells artifact.grid,
      artifact.grid.val c = VoxelState.empty ∨
      artifact.grid.val c = VoxelState.occupied ∨
      artifact.grid.val c = VoxelState.outside) ∧
    analysis.grid_metadata.occupied_count +
        analysis.grid_metadata.empty_count +
        analysis.grid_metadata.outside_count =
      analysis.grid_metadata.resolution.1 *
        analysis.grid_metadata.resolution.2.1 *
        analysis.grid_metadata.resolution.2.2 := by
  simp only [analyzePipeline] at h
  split at h
  · exact absurd h (by simp)
  · split at h
    · exact absurd h (by simp)
    · rename_i g0 hbuild
      split at h
      · exact absurd h (by simp)
      · rename_i pockets hcollect
        simp only [Except.ok.injEq, Prod.mk.injEq] at h
        obtain ⟨han, hart⟩ := h
        subst han
        subst hart
        dsimp only
        have hstates := floodFillOutside_states g0
          (buildOccupancyGrid_states hbuild)
        refine ⟨fun c _ => hstates c, ?_⟩
        simp only [mkMetadata]
        exact tri_count (floodFillOutside g0) (fun c _ => hstates c)

/-! ### A concrete pipeline run, for the analysis witnesses -/

/-- Witness input: two points spanning the unit cube diagonal. -/
def ptsW : List (ℚ × ℚ × ℚ) := [(0, 0, 0), (1, 1, 1)]

/-- The 1×1×1 occupancy grid the witness input produces (voxel size 1, both
points binned — after clamping — to the single voxel). -/
def gW0 : VGrid :=
  { nx := 1, ny := 1, nz := 1,
    val := fun c =>
      if c ∈ ({((0 : ℕ), (0 : ℕ), (0 : ℕ))} : Finset Coord) then
        VoxelState.occupied
      else VoxelState.empty }

theorem boundsLow3W : boundsLow3 ptsW = (0, 0, 0) := by
  norm_num [boundsLow3, ptsW]

theorem boundsHigh3W : boundsHigh3 ptsW = (1, 1, 1) := by
  norm_num [boundsHigh3, ptsW]

theorem pipelineVsW : pipelineVs ptsW 1 1 = 1 := by
  rw [pipelineVs, boundsLow3W, boundsHigh3W]
  norm_num [computeVoxelResolution]

theorem buildW : buildOccupancyGrid ptsW (0, 0, 0) (1, 1, 1) 1 0 4 =
    Except.ok gW0 := by
  simp only [buildOccupancyGrid]
  have hceil : ⌈((1 : ℚ) - 0) / 1⌉ = 1 := by norm_num
  have hr : ⌈((1 : ℚ) - 0) / 1⌉ ⊓ ((4 : ℕ) : ℤ) = 1 := by rw [hceil]; decide
  rw [hr]
  have hbase : (ptsW.map (fun p => binPoint p (0, 0, 0) 1 1 1 1)).toFinset =
      ({((0 : ℕ), (0 : ℕ), (0 : ℕ))} : Finset Coord) := by
    have h0 : binPoint ((0 : ℚ), (0 : ℚ), (0 : ℚ)) (0, 0, 0) 1 1 1 1 =
        ((0 : ℕ), (0 : ℕ), (0 : ℕ)) := by
      norm_num [binPoint, truncQ, clipZ]
    have h1 : binPoint ((1 : ℚ), (1 : ℚ), (1 : ℚ)) (0, 0, 0) 1 1 1 1 =
        ((0 : ℕ), (0 : ℕ), (0 : ℕ)) := by
      norm_num [binPoint, truncQ, clipZ]
    rw [show ptsW.map (fun p => binPoint p (0, 0, 0) 1 1 1 1) =
        [((0 : ℕ), (0 : ℕ), (0 : ℕ)), ((0 : ℕ), (0 : ℕ), (0 : ℕ))] from by
      rw [ptsW]; simp only [List.map_cons, List.map_nil, h0, h1]]
    decide
  rw [if_neg (by decide), if_neg (by decide), hbase]
  rfl

/-- The flood-filled grid of the witness run (no EMPTY voxels, so nothing is
relabelled and no pocket exists). -/
def gW1 : VGrid := floodFillOutside gW0

/-- The analysis the witness run computes. -/
def anW1 : PocketAnalysis :=
  { grid_metadata :=
      { resolution := (1, 1, 1), voxel_size := 1, bounds_low := (0, 0, 0),
        bounds_high := (1, 1, 1), occupied_count := 1, empty_count := 0,
        outside_count := 0, pocket_count := 0 }
    pockets := []
    computed_at := 5 }

/-- The artifact the witness run persists. -/
def artW1 : GridArtifact :=
  { grid := gW1, labeled := (labelPockets gW1).1, voxel_size := 1,
    bounds_low := (0, 0, 0) }

theorem pipelineW :
    analyzePipeline ptsW 1 1 0 4 1 5 = Except.ok (anW1, artW1) := by
  unfold analyzePipeline
  rw [if_neg (by decide), pipelineVsW, boundsLow3W, boundsHigh3W, buildW]
  rfl

theorem claim_C6_witness : artW1.labeled = (labelPockets artW1.grid).1 :=
  (claim_C6 ptsW 1 1 0 4 1 5 anW1 artW1 pipelineW).1

theorem claim_C10_witness :
    anW1.grid_metadata.occupied_count + anW1.grid_metadata.empty_count +
        anW1.grid_metadata.outside_count =
      anW1.grid_metadata.resolution.1 * anW1.grid_metadata.resolution.2.1 *
        anW1.grid_metadata.resolution.2.2 :=
  (claim_C10 ptsW 1 1 0 4 1 5 anW1 artW1 pipelineW).2

/-! ### Octree builder and tile addressing (`pointcloud_service.py`)

Point coordinates come from numpy floats and the build performs no
validation, so NaN values must be representable: a coordinate is a
rational (finite) value or the NaN marker `F.nan`.  As in IEEE/numpy,
every comparison against NaN is false and NaN propagates through
arithmetic and through the `min`/`max` reductions that compute the
bounding box.  Infinite coordinates are NOT modelled: IEEE comparisons
against an infinity are not all false (`-inf >= -inf` holds, and an
infinite point can satisfy an octant mask), so the theorems below speak
of finite and NaN coordinates only. -/

inductive F where
  | nan
  | fin (q : ℚ)
deriving DecidableEq, Repr

/-- `a <= b` on floats (false when either side is NaN; infinities are not
modelled). -/
def fle : F → F → Bool
  | F.fin a, F.fin b => a ≤ b
  | _, _ => false

/-- `a < b` on floats (false when either side is NaN; infinities are not
modelled). -/
def flt : F → F → Bool
  | F.fin a, F.fin b => a < b
  | _, _ => false

def fadd : F → F → F
  | F.fin a, F.fin b => F.fin (a + b)
  | _, _ => F.nan

/-- Division by the constant 2 (for the bbox midpoint). -/
def fhalf : F → F
  | F.fin a => F.fin (a / 2)
  | F.nan => F.nan

def fmin : F → F → F
  | F.fin a, F.fin b => F.fin (min a b)
  | _, _ => F.nan

def fmax : F → F → F
  | F.fin a, F.fin b => F.fin (max a b)
  | _, _ => F.nan

/-- A 3-D float point. -/
abbrev FPt := F × F × F

def fminP (a b : FPt) : FPt :=
  (fmin a.1 b.1, fmin a.2.1 b.2.1, fmin a.2.2 b.2.2)

def fmaxP (a b : FPt) : FPt :=
  (fmax a.1 b.1, fmax a.2.1 b.2.1, fmax a.2.2 b.2.2)

/-- `xyz.min(axis=0)` over a non-empty list (the `[]` case is unreachable:
`_build_octree` is only invoked after a reduction that raises on it). -/
def fboundsLow : List FPt → FPt
  | [] => (F.nan, F.nan, F.nan)
  | p :: rest => rest.foldl fminP p

def fboundsHigh : List FPt → FPt
  | [] => (F.nan, F.nan, F.nan)
  | p :: rest => rest.foldl fmaxP p

/-- `center = (bounds_low + bounds_high) / 2`. -/
def midPt (bl bh : FPt) : FPt :=
  (fhalf (fadd bl.1 bh.1), fhalf (fadd bl.2.1 bh.2.1),
   fhalf (fadd bl.2.2 bh.2.2))

/-- Child octant bounds: per axis, a set bit keeps the upper half
(`child_low = center`), a clear bit the lower half (`child_high = center`). -/
def childBounds (bl bh c : FPt) (o : ℕ) : FPt × FPt :=
  ((if o &&& 1 ≠ 0 then c.1 else bl.1,
    if o &&& 2 ≠ 0 then c.2.1 else bl.2.1,
    if o &&& 4 ≠ 0 then c.2.2 else bl.2.2),
   (if o &&& 1 ≠ 0 then bh.1 else c.1,
    if o &&& 2 ≠ 0 then bh.2.1 else c.2.1,
    if o &&& 4 ≠ 0 then bh.2.2 else c.2.2))

/-- The octant filter of `_build_octree_recursive`:
`child_low <= p` and `p < child_high` on every axis. -/
def inOct (p cl ch : FPt) : Bool :=
  fle cl.1 p.1 && flt p.1 ch.1 && fle cl.2.1 p.2.1 && flt p.2.1 ch.2.1 &&
    fle cl.2.2 p.2.2 && flt p.2.2 ch.2.2

/-- `xyz[i]` (indices produced by the build are always in range). -/
def ptAt (pts : List FPt) (i : ℕ) : FPt := pts.getD i (F.nan, F.nan, F.nan)

def digitChar (d : ℕ) : Char := Char.ofNat (48 + d)

/-- `node_id + str(octant)` for a single octant digit. -/
def appendDigit (s : String) (d : ℕ) : String := s.push (digitChar d)

/-- A built octree node (`OctreeNodeInfo`), instrumented with the recursion
arguments that produced it: `path` is the list of octant digits appended to
the root id (so `node_id = "r" ++ digits`), `indices` the point indices
assigned to the node. -/
structure ONode where
  node_id : String
  path : List ℕ
  level : ℕ
  bounds_low : FPt
  bounds_high : FPt
  point_count : ℕ
  children : List String
  indices : List ℕ
deriving DecidableEq, Repr

/-- A persisted tile: node id and the indices of the points stored. -/
abbrev Tile := String × List ℕ

/-- Abstraction of `np.random.choice(indices, k, replace=False)`: any
sampling function may stand in for it. -/
abbrev Sampler := List ℕ → ℕ → List ℕ

/-- The point indices of the node falling in octant `o`. -/
def octIdx (pts : List FPt) (indices : List ℕ) (bl bh : FPt) (o : ℕ) :
    List ℕ :=
  indices.filter (fun i =>
    inOct (ptAt pts i) (childBounds bl bh (midPt bl bh) o).1
      (childBounds bl bh (midPt bl bh) o).2)

/-- The indices falling in octant `o` when the centre `c` is passed
explicitly (the loop body's filter). -/
def cIdx (pts : List FPt) (indices : List ℕ) (bl bh c : FPt) (o : ℕ) :
    List ℕ :=
  indices.filter (fun i =>
    inOct (ptAt pts i) (childBounds bl bh c o).1 (childBounds bl bh c o).2)

/-- The octant loop of `_build_octree_recursive`, parameterized by the
recursive call `f` at the next level.  The accumulator carries the node
registry entries, the persisted tiles and the children ids collected so
far. -/
def octLoop (pts : List FPt)
    (f : String → List ℕ → List ℕ → FPt → FPt → ℕ → List ONode × List Tile)
    (node_id : String) (path : List ℕ) (indices : List ℕ) (bl bh c : FPt)
    (level : ℕ) :
    List ℕ → List ONode × List Tile × List String →
      List ONode × List Tile × List String
  | [], acc => acc
  | o :: os, acc =>
      if cIdx pts indices bl bh c o = [] then
        octLoop pts f node_id path indices bl bh c level os acc
      else
        octLoop pts f node_id path indices bl bh c level os
          (acc.1 ++ (f (appendDigit node_id o) (path ++ [o])
            (cIdx pts indices bl bh c o)
            (childBounds bl bh c o).1 (childBounds bl bh c o).2 (level + 1)).1,
           acc.2.1 ++ (f (appendDigit node_id o) (path ++ [o])
            (cIdx pts indices bl bh c o)
            (childBounds bl bh c o).1 (childBounds bl bh c o).2 (level + 1)).2,
           acc.2.2 ++ [appendDigit node_id o])

/-- The tile `_build_octree_recursive` writes for a node: all points for a
leaf (at the target or at max depth), a sampled subset of size
`min(target // 2, point_count)` otherwise, nothing for an empty node. -/
def nodeTile (sampler : Sampler) (target maxd : ℕ) (node_id : String)
    (indices : List ℕ) (level : ℕ) : List Tile :=
  if 0 < indices.length then
    if indices.length ≤ target ∨ maxd ≤ level then [(node_id, indices)]
    else [(node_id, sampler indices (min (target / 2) indices.length))]
  else []

/-- `_build_octree_recursive`.  The `fuel` argument exists only to bound the
recursion for the termination checker; the caller passes
`max_depth + 1 - level`, which the `level < max_depth` guard keeps positive
at every recursive call, so the `fuel = 0` branch is never reached. -/
def buildRec (sampler : Sampler) (pts : List FPt) (target maxd : ℕ) :
    ℕ → String → List ℕ → List ℕ → FPt → FPt → ℕ → List ONode × List Tile
  | 0, _, _, _, _, _, _ => ([], [])
  | fuel + 1, node_id, path, indices, bl, bh, level =>
      if target < indices.length ∧ level < maxd then
        ((octLoop pts (buildRec sampler pts target maxd fuel) node_id path
            indices bl bh (midPt bl bh) level (List.range 8) ([], [], [])).1 ++
          [⟨node_id, path, level, bl, bh, indices.length,
            (octLoop pts (buildRec sampler pts target maxd fuel) node_id path
              indices bl bh (midPt bl bh) level (List.range 8)
              ([], [], [])).2.2, indices⟩],
         nodeTile sampler target maxd node_id indices level ++
          (octLoop pts (buildRec sampler pts target maxd fuel) node_id path
            indices bl bh (midPt bl bh) level (List.range 8) ([], [], [])).2.1)
      else
        ([⟨node_id, path, level, bl, bh, indices.length, [], indices⟩],
         nodeTile sampler target maxd node_id indices level)

/-- The build output: node registry, persisted tiles and octree metadata
(`OctreeMetadata`). -/
structure OctreeResult where
  root_id : String
  nodes : List ONode
  tiles : List Tile
  total_points : ℕ
  max_level : ℕ
  node_count : ℕ
deriving DecidableEq, Repr

/-- `PointCloudService._build_octree`: bounds from the points (the numpy
reduction raises on an empty array), recursive build from the root id `"r"`,
metadata assembled from the node registry. -/
def buildOctree (sampler : Sampler) (pts : List FPt) (target maxd : ℕ) :
    Except String OctreeResult :=
  if pts.isEmpty then Except.error "zero-size array reduction"
  else
    let r := buildRec sampler pts target maxd (maxd + 1) "r" []
      (List.range pts.length) (fboundsLow pts) (fboundsHigh pts) 0
    Except.ok
      { root_id := "r"
        nodes := r.1
        tiles := r.2
        total_points := pts.length
        max_level := (r.1.map (fun nd => nd.level)).foldl max 0
        node_count := r.1.length }

/-- `PointCloudService._coords_to_node_id`. -/
def coordsToNodeId (level x y z : ℕ) : String :=
  if level = 0 then "r"
  else
    (List.range level).foldl
      (fun nid l =>
        let shift := level - l - 1
        let octant := ((x >>> shift) &&& 1) |||
          (((y >>> shift) &&& 1) <<< 1) ||| (((z >>> shift) &&& 1) <<< 2)
        nid.push (digitChar octant)) "r"

/-- Per-axis grid coordinate of the cell addressed by a digit path: the
octant bits, most significant first (bit 0 of each digit is the x bit). -/
def bitsX (path : List ℕ) : ℕ := path.foldl (fun a d => 2 * a + (d &&& 1)) 0

def bitsY (path : List ℕ) : ℕ :=
  path.foldl (fun a d => 2 * a + ((d >>> 1) &&& 1)) 0

def bitsZ (path : List ℕ) : ℕ :=
  path.foldl (fun a d => 2 * a + ((d >>> 2) &&& 1)) 0

/-- The node id determined by a digit path: `"r"` with the digits appended. -/
def digitsStr (path : List ℕ) : String := path.foldl appendDigit "r"

theorem coordsToNodeId_succ (L x y z : ℕ) :
    coordsToNodeId (L + 1) x y z =
      (coordsToNodeId L (x >>> 1) (y >>> 1) (z >>> 1)).push
        (digitChar ((x &&& 1) ||| ((y &&& 1) <<< 1) ||| ((z &&& 1) <<< 2))) := by
  unfold coordsToNodeId
  rw [if_neg (Nat.succ_ne_zero L)]
  rw [List.range_succ, List.foldl_append]
  simp only [List.foldl_cons, List.foldl_nil]
  have hshift : L + 1 - L - 1 = 0 := by omega
  rw [hshift]
  simp only [Nat.shiftRight_zero]
  by_cases hL : L = 0
  · subst hL
    simp
  · rw [if_neg hL]
    congr 1
    apply List.foldl_ext
    intro acc l hl
    have hl' : l < L := List.mem_range.1 hl
    have he : L + 1 - l - 1 = 1 + (L - l - 1) := by omega
    rw [he, Nat.shiftRight_add x 1 (L - l - 1), Nat.shiftRight_add y 1 (L - l - 1),
      Nat.shiftRight_add z 1 (L - l - 1)]

theorem digitsStr_append (path : List ℕ) (d : ℕ) :
    digitsStr (path ++ [d]) = (digitsStr path).push (digitChar d) := by
  simp [digitsStr, List.foldl_append, appendDigit]

theorem bitsX_append (path : List ℕ) (d : ℕ) :
    bitsX (path ++ [d]) = 2 * bitsX path + (d &&& 1) := by
  simp [bitsX, List.foldl_append]

theorem bitsY_append (path : List ℕ) (d : ℕ) :
    bitsY (path ++ [d]) = 2 * bitsY path + ((d >>> 1) &&& 1) := by
  simp [bitsY, List.foldl_append]

theorem bitsZ_append (path : List ℕ) (d : ℕ) :
    bitsZ (path ++ [d]) = 2 * bitsZ path + ((d >>> 2) &&& 1) := by
  simp [bitsZ, List.foldl_append]

/-- The tile-address lookup inverts the digit-path encoding: looking up the
grid cell whose per-axis coordinates are the bits of an octant path yields
exactly the id `"r" ++ digits`. -/
theorem coordsToNodeId_path :
    ∀ path : List ℕ, (∀ d ∈ path, d < 8) →
      coordsToNodeId path.length (bitsX path) (bitsY path) (bitsZ path) =
        digitsStr path := by
  intro path
  induction path using List.reverseRecOn with
  | nil => intro _; rfl
  | append_singleton path d ih =>
      intro hd
      have hd8 : d < 8 := hd d (by simp)
      have hlen : (path ++ [d]).length = path.length + 1 := by simp
      rw [hlen, bitsX_append, bitsY_append, bitsZ_append, coordsToNodeId_succ,
        digitsStr_append]
      have hx1 : (2 * bitsX path + (d &&& 1)) >>> 1 = bitsX path := by
        rw [Nat.shiftRight_one, Nat.and_one_is_mod]
        omega
      have hx2 : (2 * bitsX path + (d &&& 1)) &&& 1 = d &&& 1 := by
        rw [Nat.and_one_is_mod, Nat.and_one_is_mod]
        omega
      have hy1 : (2 * bitsY path + ((d >>> 1) &&& 1)) >>> 1 = bitsY path := by
        rw [Nat.shiftRight_one, Nat.and_one_is_mod]
        omega
      have hy2 : (2 * bitsY path + ((d >>> 1) &&& 1)) &&& 1 = (d >>> 1) &&& 1 := by
        rw [Nat.and_one_is_mod, Nat.and_one_is_mod]
        omega
      have hz1 : (2 * bitsZ path + ((d >>> 2) &&& 1)) >>> 1 = bitsZ path := by
        rw [Nat.shiftRight_one, Nat.and_one_is_mod]
        omega
      have hz2 : (2 * bitsZ path + ((d >>> 2) &&& 1)) &&& 1 = (d >>> 2) &&& 1 := by
        rw [Nat.and_one_is_mod, Nat.and_one_is_mod]
        omega
      rw [hx1, hx2, hy1, hy2, hz1, hz2, ih (fun e he => hd e (by simp [he]))]
      have hdigit : (d &&& 1) ||| (((d >>> 1) &&& 1) <<< 1) |||
          (((d >>> 2) &&& 1) <<< 2) = d := by
        interval_cases d <;> rfl
      rw [hdigit]

/-! ### Structural properties of the octree build -/

theorem octIdx_eq_cIdx (pts : List FPt) (indices : List ℕ) (bl bh : FPt)
    (o : ℕ) : octIdx pts indices bl bh o = cIdx pts indices bl bh (midPt bl bh) o :=
  rfl

theorem push_right_inj {s : String} {a b : Char} (h : s.push a = s.push b) :
    a = b := by
  have hd : s.data ++ [a] = s.data ++ [b] := congrArg String.data h
  simpa using hd

theorem digitChar_inj {o p : ℕ} (ho : o < 8) (hp : p < 8)
    (h : digitChar o = digitChar p) : o = p := by
  interval_cases o <;> interval_cases p <;> first | rfl | exact absurd h (by decide)

theorem appendDigit_inj {s : String} {o p : ℕ} (ho : o < 8) (hp : p < 8)
    (h : appendDigit s o = appendDigit s p) : o = p :=
  digitChar_inj ho hp (push_right_inj h)

theorem digitsStr_concat (path : List ℕ) (d : ℕ) :
    digitsStr (path ++ [d]) = appendDigit (digitsStr path) d := by
  simp [digitsStr, List.foldl_append]

section OctLoopLemmas

variable (pts : List FPt)
  (f : String → List ℕ → List ℕ → FPt → FPt → ℕ → List ONode × List Tile)
  (node_id : String) (path : List ℕ) (indices : List ℕ) (bl bh c : FPt)
  (level : ℕ)

theorem octLoop_mono_nodes :
    ∀ (os : List ℕ) (acc : List ONode × List Tile × List String),
      ∀ nd ∈ acc.1,
        nd ∈ (octLoop pts f node_id path indices bl bh c level os acc).1 := by
  intro os
  induction os with
  | nil => intro acc nd hnd; exact hnd
  | cons o os ih =>
      intro acc nd hnd
      unfold octLoop
      by_cases hc : cIdx pts indices bl bh c o = []
      · rw [if_pos hc]; exact ih acc nd hnd
      · rw [if_neg hc]
        exact ih _ nd (List.mem_append_left _ hnd)

theorem octLoop_mono_chs :
    ∀ (os : List ℕ) (acc : List ONode × List Tile × List String),
      ∀ s ∈ acc.2.2,
        s ∈ (octLoop pts f node_id path indices bl bh c level os acc).2.2 := by
  intro os
  induction os with
  | nil => intro acc s hs; exact hs
  | cons o os ih =>
      intro acc s hs
      unfold octLoop
      by_cases hc : cIdx pts indices bl bh c o = []
      · rw [if_pos hc]; exact ih acc s hs
      · rw [if_neg hc]
        exact ih _ s (List.mem_append_left _ hs)

theorem octLoop_nodes_src :
    ∀ (os : List ℕ) (acc : List ONode × List Tile × List String),
      ∀ nd ∈ (octLoop pts f node_id path indices bl bh c level os acc).1,
        nd ∈ acc.1 ∨ ∃ o ∈ os, cIdx pts indices bl bh c o ≠ [] ∧
          nd ∈ (f (appendDigit node_id o) (path ++ [o])
            (cIdx pts indices bl bh c o) (childBounds bl bh c o).1
            (childBounds bl bh c o).2 (level + 1)).1 := by
  intro os
  induction os with
  | nil => intro acc nd hnd; exact Or.inl hnd
  | cons o os ih =>
      intro acc nd hnd
      unfold octLoop at hnd
      by_cases hc : cIdx pts indices bl bh c o = []
      · rw [if_pos hc] at hnd
        rcases ih acc nd hnd with h | ⟨o', ho', hne, hmem⟩
        · exact Or.inl h
        · exact Or.inr ⟨o', List.mem_cons_of_mem _ ho', hne, hmem⟩
      · rw [if_neg hc] at hnd
        rcases ih _ nd hnd with h | ⟨o', ho', hne, hmem⟩
        · rcases List.mem_append.1 h with h | h
          · exact Or.inl h
          · exact Or.inr ⟨o, List.mem_cons_self _ _, hc, h⟩
        · exact Or.inr ⟨o', List.mem_cons_of_mem _ ho', hne, hmem⟩

theorem octLoop_chs_src :
    ∀ (os : List ℕ) (acc : List ONode × List Tile × List String),
      ∀ s ∈ (octLoop pts f node_id path indices bl bh c level os acc).2.2,
        s ∈ acc.2.2 ∨ ∃ o ∈ os, cIdx pts indices bl bh c o ≠ [] ∧
          s = appendDigit node_id o := by
  intro os
  induction os with
  | nil => intro acc s hs; exact Or.inl hs
  | cons o os ih =>
      intro acc s hs
      unfold octLoop at hs
      by_cases hc : cIdx pts indices bl bh c o = []
      · rw [if_pos hc] at hs
        rcases ih acc s hs with h | ⟨o', ho', hne, hmem⟩
        · exact Or.inl h
        · exact Or.inr ⟨o', List.mem_cons_of_mem _ ho', hne, hmem⟩
      · rw [if_neg hc] at hs
        rcases ih _ s hs with h | ⟨o', ho', hne, hmem⟩
        · rcases List.mem_append.1 h with h | h
          · exact Or.inl h
          · exact Or.inr ⟨o, List.mem_cons_self _ _, hc, by simpa using h⟩
        · exact Or.inr ⟨o', List.mem_cons_of_mem _ ho', hne, hmem⟩

theorem octLoop_chs_complete :
    ∀ (os : List ℕ) (acc : List ONode × List Tile × List String),
      ∀ o ∈ os, cIdx pts indices bl bh c o ≠ [] →
        appendDigit node_id o ∈
          (octLoop pts f node_id path indices bl bh c level os acc).2.2 := by
  intro os
  induction os with
  | nil => intro acc o ho; exact absurd ho (List.not_mem_nil o)
  | cons o' os ih =>
      intro acc o ho hne
      unfold octLoop
      rcases List.mem_cons.1 ho with rfl | ho
      · rw [if_neg hne]
        exact octLoop_mono_chs pts f node_id path indices bl bh c level os _ _
          (List.mem_append_right _ (List.mem_singleton_self _))
      · by_cases hc : cIdx pts indices bl bh c o' = []
        · rw [if_pos hc]; exact ih acc o ho hne
        · rw [if_neg hc]; exact ih _ o ho hne

theorem octLoop_nodes_complete :
    ∀ (os : List ℕ) (acc : List ONode × List Tile × List String),
      ∀ o ∈ os, cIdx pts indices bl bh c o ≠ [] →
        ∀ nd ∈ (f (appendDigit node_id o) (path ++ [o])
            (cIdx pts indices bl bh c o) (childBounds bl bh c o).1
            (childBounds bl bh c o).2 (level + 1)).1,
          nd ∈ (octLoop pts f node_id path indices bl bh c level os acc).1 := by
  intro os
  induction os with
  | nil => intro acc o ho; exact absurd ho (List.not_mem_nil o)
  | cons o' os ih =>
      intro acc o ho hne nd hnd
      unfold octLoop
      rcases List.mem_cons.1 ho with rfl | ho
      · rw [if_neg hne]
        exact octLoop_mono_nodes pts f node_id path indices bl bh c level os _ _
          (List.mem_append_right _ hnd)
      · by_cases hc : cIdx pts indices bl bh c o' = []
        · rw [if_pos hc]; exact ih acc o ho hne nd hnd
        · rw [if_neg hc]; exact ih _ o ho hne nd hnd

end OctLoopLemmas

/-- Structural soundness of `_build_octree_recursive`: every registered node
carries the id determined by its octant path, its level is the path length,
its point count is the size of its index set; a subdivided node has exactly
the children whose octants are non-empty, each materialized in the registry
with the octant's filtered indices and halved bounds, and a leaf has no
children.  The last conjunct: the call's own node is registered with the
call's arguments. -/
theorem buildRec_struct (sampler : Sampler) (pts : List FPt) (target maxd : ℕ) :
    ∀ (fuel : ℕ) (node_id : String) (path : List ℕ) (indices : List ℕ)
      (bl bh : FPt) (level : ℕ),
      node_id = digitsStr path → level = path.length → (∀ d ∈ path, d < 8) →
      level ≤ maxd → maxd < fuel + level →
      (∀ nd ∈ (buildRec sampler pts target maxd fuel node_id path indices bl
          bh level).1,
        (nd.node_id = digitsStr nd.path ∧ nd.level = nd.path.length ∧
          (∀ d ∈ nd.path, d < 8) ∧ nd.level ≤ maxd ∧
          nd.point_count = nd.indices.length) ∧
        (target < nd.point_count ∧ nd.level < maxd →
          (∀ o, o < 8 →
            (appendDigit nd.node_id o ∈ nd.children ↔
              octIdx pts nd.indices nd.bounds_low nd.bounds_high o ≠ [])) ∧
          (∀ o, o < 8 →
            octIdx pts nd.indices nd.bounds_low nd.bounds_high o ≠ [] →
            ∃ ch ∈ (buildRec sampler pts target maxd fuel node_id path indices
                bl bh level).1,
              ch.node_id = appendDigit nd.node_id o ∧
              ch.indices = octIdx pts nd.indices nd.bounds_low nd.bounds_high o ∧
              ch.bounds_low = (childBounds nd.bounds_low nd.bounds_high
                (midPt nd.bounds_low nd.bounds_high) o).1 ∧
              ch.bounds_high = (childBounds nd.bounds_low nd.bounds_high
                (midPt nd.bounds_low nd.bounds_high) o).2 ∧
              ch.level = nd.level + 1)) ∧
        (¬(target < nd.point_count ∧ nd.level < maxd) → nd.children = [])) ∧
      (∃ nd ∈ (buildRec sampler pts target maxd fuel node_id path indices bl
          bh level).1,
        nd.node_id = node_id ∧ nd.path = path ∧ nd.level = level ∧
        nd.bounds_low = bl ∧ nd.bounds_high = bh ∧ nd.indices = indices ∧
        nd.point_count = indices.length) := by
  intro fuel
  induction fuel with
  | zero =>
      intro node_id path indices bl bh level _ _ _ h4 h5
      omega
  | succ fuel ih =>
      intro node_id path indices bl bh level h1 h2 h3 h4 h5
      by_cases hg : target < indices.length ∧ level < maxd
      · unfold buildRec
        rw [if_pos hg]
        constructor
        · intro nd hnd
          rcases List.mem_append.1 hnd with hnd | hnd
          · -- a node contributed by one of the child subtrees
            rcases octLoop_nodes_src pts _ node_id path indices bl bh
              (midPt bl bh) level (List.range 8) ([], [], []) nd hnd with
              h | ⟨o, ho, hne, hmem⟩
            · exact absurd h (List.not_mem_nil nd)
            · have ho8 : o < 8 := List.mem_range.1 ho
              have hcid : appendDigit node_id o = digitsStr (path ++ [o]) := by
                rw [h1, digitsStr_concat]
              have hcdig : ∀ d ∈ path ++ [o], d < 8 := by
                intro d hd
                rcases List.mem_append.1 hd with hd | hd
                · exact h3 d hd
                · rw [List.mem_singleton.1 hd]; exact ho8
              have hih := ih (appendDigit node_id o) (path ++ [o])
                (cIdx pts indices bl bh (midPt bl bh) o)
                (childBounds bl bh (midPt bl bh) o).1
                (childBounds bl bh (midPt bl bh) o).2 (level + 1)
                hcid (by simp [h2]) hcdig hg.2 (by omega)
              obtain ⟨hper, -⟩ := hih
              obtain ⟨ha, hb, hc⟩ := hper nd hmem
              refine ⟨ha, ?_, hc⟩
              intro hcond
              obtain ⟨hiff, hex⟩ := hb hcond
              refine ⟨hiff, ?_⟩
              intro o' ho8' hne'
              obtain ⟨ch, hch, hrest⟩ := hex o' ho8' hne'
              refine ⟨ch, List.mem_append_left _ ?_, hrest⟩
              exact octLoop_nodes_complete pts _ node_id path indices bl bh
                (midPt bl bh) level (List.range 8) ([], [], []) o ho hne ch hch
          · -- the call's own node
            rw [List.mem_singleton.1 hnd]
            refine ⟨⟨h1, h2, h3, h4, rfl⟩, ?_, ?_⟩
            · intro _
              constructor
              · intro o ho8
                constructor
                · intro hin
                  rcases octLoop_chs_src pts _ node_id path indices bl bh
                    (midPt bl bh) level (List.range 8) ([], [], []) _ hin with
                    h | ⟨o', ho', hne', heq⟩
                  · exact absurd h (List.not_mem_nil _)
                  · have := appendDigit_inj ho8 (List.mem_range.1 ho') heq
                    subst this
                    rw [octIdx_eq_cIdx]
                    exact hne'
                · intro hne
                  rw [octIdx_eq_cIdx] at hne
                  exact octLoop_chs_complete pts _ node_id path indices bl bh
                    (midPt bl bh) level (List.range 8) ([], [], []) o
                    (List.mem_range.2 ho8) hne
              · intro o ho8 hne
                rw [octIdx_eq_cIdx] at hne
                have hcid : appendDigit node_id o = digitsStr (path ++ [o]) := by
                  rw [h1, digitsStr_concat]
                have hcdig : ∀ d ∈ path ++ [o], d < 8 := by
                  intro d hd
                  rcases List.mem_append.1 hd with hd | hd
                  · exact h3 d hd
                  · rw [List.mem_singleton.1 hd]; exact ho8
                have hih := ih (appendDigit node_id o) (path ++ [o])
                  (cIdx pts indices bl bh (midPt bl bh) o)
                  (childBounds bl bh (midPt bl bh) o).1
                  (childBounds bl bh (midPt bl bh) o).2 (level + 1)
                  hcid (by simp [h2]) hcdig hg.2 (by omega)
                obtain ⟨-, ch, hch, hid, -, hlev, hcbl, hcbh, hidx, -⟩ := hih
                refine ⟨ch, List.mem_append_left _ ?_, hid, ?_, hcbl, hcbh, ?_⟩
                · exact octLoop_nodes_complete pts _ node_id path indices bl bh
                    (midPt bl bh) level (List.range 8) ([], [], []) o
                    (List.mem_range.2 ho8) hne ch hch
                · rw [hidx, octIdx_eq_cIdx]
                · rw [hlev]
            · intro hcond
              exact absurd hg hcond
        · refine ⟨_, List.mem_append_right _ (List.mem_singleton_self _),
            rfl, rfl, rfl, rfl, rfl, rfl, rfl⟩
      · unfold buildRec
        rw [if_neg hg]
        constructor
        · intro nd hnd
          rw [List.mem_singleton.1 hnd]
          refine ⟨⟨h1, h2, h3, h4, rfl⟩, ?_, fun _ => rfl⟩
          intro hcond
          exact absurd hcond hg
        · exact ⟨_, List.mem_singleton_self _, rfl, rfl, rfl, rfl, rfl, rfl, rfl⟩

/-- C3: round-trip of the id encoding — for every node the builder
materialized, the tile-address lookup at the node's level and grid cell
(the per-axis coordinates packed from its octant path, most significant bit
first, per the octant bit convention) returns exactly the id the builder
assigned to that node.  The lookup is thus the exact inverse of the
subdivision rule on every materialized octant path. -/
theorem claim_C3 (sampler : Sampler) (pts : List FPt) (target maxd : ℕ)
    (res : OctreeResult)
    (h : buildOctree sampler pts target maxd = Except.ok res) :
    ∀ nd ∈ res.nodes,
      coordsToNodeId nd.level (bitsX nd.path) (bitsY nd.path) (bitsZ nd.path) =
        nd.node_id := by
  intro nd hnd
  simp only [buildOctree] at h
  split at h
  · exact absurd h (by simp)
  · simp only [Except.ok.injEq] at h
    subst h
    obtain ⟨hper, -⟩ := buildRec_struct sampler pts target maxd (maxd + 1) "r"
      [] (List.range pts.length) (fboundsLow pts) (fboundsHigh pts) 0 rfl rfl
      (by simp) (by omega) (by omega)
    obtain ⟨⟨hid, hlev, hdig, -, -⟩, -, -⟩ := hper nd hnd
    rw [hlev, hid, coordsToNodeId_path nd.path hdig]

/-- The sampler used in concrete runs (stands in for `np.random.choice`). -/
def takeSampler : Sampler := fun idx k => idx.take k

/-- A one-point cloud for the C3 witness. -/
def ptsF1 : List FPt := [(F.fin 0, F.fin 0, F.fin 0)]

/-- The root (and only) node its build produces. -/
def ndF1 : ONode :=
  { node_id := "r", path := [], level := 0,
    bounds_low := (F.fin 0, F.fin 0, F.fin 0),
    bounds_high := (F.fin 0, F.fin 0, F.fin 0),
    point_count := 1, children := [], indices := [0] }

def resF1 : OctreeResult :=
  { root_id := "r", nodes := [ndF1], tiles := [("r", [0])], total_points := 1,
    max_level := 0, node_count := 1 }

theorem claim_C3_witness :
    coordsToNodeId ndF1.level (bitsX ndF1.path) (bitsY ndF1.path)
      (bitsZ ndF1.path) = ndF1.node_id :=
  claim_C3 takeSampler ptsF1 1 2 resF1 rfl ndF1 (by decide)

/-! ### Numeric invariants of the build: boxes, strict upper bounds,
octant membership -/

theorem fle_fin {a b : F} (h : fle a b = true) :
    ∃ qa qb, a = F.fin qa ∧ b = F.fin qb ∧ qa ≤ qb := by
  cases a with
  | nan => simp [fle] at h
  | fin qa =>
      cases b with
      | nan => simp [fle] at h
      | fin qb => exact ⟨qa, qb, rfl, rfl, by simpa [fle] using h⟩

theorem flt_fin {a b : F} (h : flt a b = true) :
    ∃ qa qb, a = F.fin qa ∧ b = F.fin qb ∧ qa < qb := by
  cases a with
  | nan => simp [flt] at h
  | fin qa =>
      cases b with
      | nan => simp [flt] at h
      | fin qb => exact ⟨qa, qb, rfl, rfl, by simpa [flt] using h⟩

theorem fle_fin_iff {qa qb : ℚ} : fle (F.fin qa) (F.fin qb) = true ↔ qa ≤ qb := by
  simp [fle]

theorem flt_fin_iff {qa qb : ℚ} : flt (F.fin qa) (F.fin qb) = true ↔ qa < qb := by
  simp [flt]

theorem fle_of_flt {a b : F} (h : flt a b = true) : fle a b = true := by
  obtain ⟨qa, qb, rfl, rfl, hlt⟩ := flt_fin h
  exact fle_fin_iff.2 hlt.le

/-- A point coordinate-wise inside a closed box (all comparisons true, hence
all values finite). -/
def inBoxPt (p bl bh : FPt) : Prop :=
  fle bl.1 p.1 = true ∧ fle p.1 bh.1 = true ∧
  fle bl.2.1 p.2.1 = true ∧ fle p.2.1 bh.2.1 = true ∧
  fle bl.2.2 p.2.2 = true ∧ fle p.2.2 bh.2.2 = true

/-- A point strictly below the box's upper corner on every axis. -/
def fltTopPt (p bh : FPt) : Prop :=
  flt p.1 bh.1 = true ∧ flt p.2.1 bh.2.1 = true ∧ flt p.2.2 bh.2.2 = true

theorem inOct_decomp {p cl ch : FPt} :
    inOct p cl ch = true ↔
      fle cl.1 p.1 = true ∧ flt p.1 ch.1 = true ∧
      fle cl.2.1 p.2.1 = true ∧ flt p.2.1 ch.2.1 = true ∧
      fle cl.2.2 p.2.2 = true ∧ flt p.2.2 ch.2.2 = true := by
  simp only [inOct, Bool.and_eq_true]
  tauto

theorem inBoxPt_of_inOct {p cl ch : FPt} (h : inOct p cl ch = true) :
    inBoxPt p cl ch := by
  obtain ⟨h1, h2, h3, h4, h5, h6⟩ := inOct_decomp.1 h
  exact ⟨h1, fle_of_flt h2, h3, fle_of_flt h4, h5, fle_of_flt h6⟩

/-- Box invariant: the indices of every registered node lie inside the
node's bounding box (provided the call's indices lie in the call's box). -/
theorem buildRec_box (sampler : Sampler) (pts : List FPt) (target maxd : ℕ) :
    ∀ (fuel : ℕ) (node_id : String) (path : List ℕ) (indices : List ℕ)
      (bl bh : FPt) (level : ℕ),
      (∀ i ∈ indices, inBoxPt (ptAt pts i) bl bh) →
      ∀ nd ∈ (buildRec sampler pts target maxd fuel node_id path indices bl
          bh level).1,
        ∀ i ∈ nd.indices, inBoxPt (ptAt pts i) nd.bounds_low nd.bounds_high := by
  intro fuel
  induction fuel with
  | zero =>
      intro node_id path indices bl bh level _ nd hnd
      exact absurd hnd (List.not_mem_nil nd)
  | succ fuel ih =>
      intro node_id path indices bl bh level hbox nd hnd
      unfold buildRec at hnd
      by_cases hg : target < indices.length ∧ level < maxd
      · rw [if_pos hg] at hnd
        rcases List.mem_append.1 hnd with hnd | hnd
        · rcases octLoop_nodes_src pts _ node_id path indices bl bh
            (midPt bl bh) level (List.range 8) ([], [], []) nd hnd with
            h | ⟨o, _, _, hmem⟩
          · exact absurd h (List.not_mem_nil nd)
          · refine ih _ _ _ _ _ _ ?_ nd hmem
            intro i hi
            have := List.of_mem_filter hi
            exact inBoxPt_of_inOct (by simpa using this)
        · rw [List.mem_singleton.1 hnd]
          exact hbox
      · rw [if_neg hg] at hnd
        rw [List.mem_singleton.1 hnd]
        exact hbox

theorem childBounds_lo1 (bl bh c : FPt) (o : ℕ) :
    (childBounds bl bh c o).1.1 = if o &&& 1 ≠ 0 then c.1 else bl.1 := rfl

theorem childBounds_lo2 (bl bh c : FPt) (o : ℕ) :
    (childBounds bl bh c o).1.2.1 = if o &&& 2 ≠ 0 then c.2.1 else bl.2.1 := rfl

theorem childBounds_lo3 (bl bh c : FPt) (o : ℕ) :
    (childBounds bl bh c o).1.2.2 = if o &&& 4 ≠ 0 then c.2.2 else bl.2.2 := rfl

theorem childBounds_hi1 (bl bh c : FPt) (o : ℕ) :
    (childBounds bl bh c o).2.1 = if o &&& 1 ≠ 0 then bh.1 else c.1 := rfl

theorem childBounds_hi2 (bl bh c : FPt) (o : ℕ) :
    (childBounds bl bh c o).2.2.1 = if o &&& 2 ≠ 0 then bh.2.1 else c.2.1 := rfl

theorem childBounds_hi3 (bl bh c : FPt) (o : ℕ) :
    (childBounds bl bh c o).2.2.2 = if o &&& 4 ≠ 0 then bh.2.2 else c.2.2 := rfl

theorem midPt_1 (bl bh : FPt) : (midPt bl bh).1 = fhalf (fadd bl.1 bh.1) := rfl

theorem midPt_2 (bl bh : FPt) :
    (midPt bl bh).2.1 = fhalf (fadd bl.2.1 bh.2.1) := rfl

theorem midPt_3 (bl bh : FPt) :
    (midPt bl bh).2.2 = fhalf (fadd bl.2.2 bh.2.2) := rfl

/-- If some point of the octant's lower half is bracketed between `bl` and
the midpoint, then anything below the midpoint is also below `bh`. -/
theorem flt_top_trans {bl pj pi bh : F} (h1 : fle bl pj = true)
    (h2 : flt pj (fhalf (fadd bl bh)) = true)
    (h3 : flt pi (fhalf (fadd bl bh)) = true) : flt pi bh = true := by
  obtain ⟨qj, qm, hpj, hmeq, hjlt⟩ := flt_fin h2
  obtain ⟨qbl, qj2, hbl, hpj2, hjle⟩ := fle_fin h1
  rw [hpj] at hpj2
  cases hpj2
  obtain ⟨qi, qm2, hpi, hmeq2, hilt⟩ := flt_fin h3
  rw [hmeq] at hmeq2
  cases hmeq2
  cases hblc : bl with
  | nan => rw [hblc] at hmeq; cases bh <;> simp [fadd, fhalf] at hmeq
  | fin qbl2 =>
      cases hbhc : bh with
      | nan => rw [hblc, hbhc] at hmeq; simp [fadd, fhalf] at hmeq
      | fin qbh =>
          rw [hblc, hbhc] at hmeq
          simp only [fadd, fhalf, F.fin.injEq] at hmeq
          rw [hblc] at hbl
          cases hbl
          rw [hpi, flt_fin_iff]
          linarith

/-- Strictness invariant: every node other than the call's own lies strictly
below the call's upper corner on every axis (its points were filtered
through an octant whose interval is half-open above). -/
theorem buildRec_strict (sampler : Sampler) (pts : List FPt) (target maxd : ℕ) :
    ∀ (fuel : ℕ) (node_id : String) (path : List ℕ) (indices : List ℕ)
      (bl bh : FPt) (level : ℕ),
      ∀ nd ∈ (buildRec sampler pts target maxd fuel node_id path indices bl
          bh level).1,
        (nd.node_id = node_id ∧ nd.indices = indices) ∨
          ∀ i ∈ nd.indices, fltTopPt (ptAt pts i) bh := by
  intro fuel
  induction fuel with
  | zero =>
      intro node_id path indices bl bh level nd hnd
      exact absurd hnd (List.not_mem_nil nd)
  | succ fuel ih =>
      intro node_id path indices bl bh level nd hnd
      unfold buildRec at hnd
      by_cases hg : target < indices.length ∧ level < maxd
      · rw [if_pos hg] at hnd
        rcases List.mem_append.1 hnd with hnd | hnd
        · rcases octLoop_nodes_src pts _ node_id path indices bl bh
            (midPt bl bh) level (List.range 8) ([], [], []) nd hnd with
            h | ⟨o, ho, hne, hmem⟩
          · exact absurd h (List.not_mem_nil nd)
          · right
            obtain ⟨j, hj⟩ := List.exists_mem_of_ne_nil _ hne
            have hjoct : inOct (ptAt pts j)
                (childBounds bl bh (midPt bl bh) o).1
                (childBounds bl bh (midPt bl bh) o).2 = true := by
              simpa using List.of_mem_filter hj
            obtain ⟨hj1, hj2, hj3, hj4, hj5, hj6⟩ := inOct_decomp.1 hjoct
            rw [childBounds_lo1] at hj1
            rw [childBounds_hi1, midPt_1] at hj2
            rw [childBounds_lo2] at hj3
            rw [childBounds_hi2, midPt_2] at hj4
            rw [childBounds_lo3] at hj5
            rw [childBounds_hi3, midPt_3] at hj6
            have hstep : ∀ p : FPt,
                fltTopPt p (childBounds bl bh (midPt bl bh) o).2 →
                fltTopPt p bh := by
              intro p hf
              obtain ⟨hf1, hf2, hf3⟩ := hf
              rw [childBounds_hi1, midPt_1] at hf1
              rw [childBounds_hi2, midPt_2] at hf2
              rw [childBounds_hi3, midPt_3] at hf3
              refine ⟨?_, ?_, ?_⟩
              · by_cases hb : o &&& 1 ≠ 0
                · rwa [if_pos hb] at hf1
                · rw [if_neg hb] at hf1 hj2
                  rw [if_neg hb] at hj1
                  exact flt_top_trans hj1 hj2 hf1
              · by_cases hb : o &&& 2 ≠ 0
                · rwa [if_pos hb] at hf2
                · rw [if_neg hb] at hf2 hj4
                  rw [if_neg hb] at hj3
                  exact flt_top_trans hj3 hj4 hf2
              · by_cases hb : o &&& 4 ≠ 0
                · rwa [if_pos hb] at hf3
                · rw [if_neg hb] at hf3 hj6
                  rw [if_neg hb] at hj5
                  exact flt_top_trans hj5 hj6 hf3
            rcases ih _ _ _ _ _ _ nd hmem with ⟨-, hidx⟩ | hdeep
            · -- the child call's own node: its indices passed the octant
              -- filter directly
              intro i hi
              have hi' := hi
              rw [hidx] at hi'
              have hioct : inOct (ptAt pts i)
                  (childBounds bl bh (midPt bl bh) o).1
                  (childBounds bl bh (midPt bl bh) o).2 = true := by
                simpa using List.of_mem_filter hi'
              obtain ⟨-, hi2, -, hi4, -, hi6⟩ := inOct_decomp.1 hioct
              exact hstep (ptAt pts i) ⟨hi2, hi4, hi6⟩
            · intro i hi
              exact hstep (ptAt pts i) (hdeep i hi)
        · rw [List.mem_singleton.1 hnd]
          exact Or.inl ⟨rfl, rfl⟩
      · rw [if_neg hg] at hnd
        rw [List.mem_singleton.1 hnd]
        exact Or.inl ⟨rfl, rfl⟩

/-- All three coordinates of a point are finite values (none is the NaN
marker). -/
def finPt (p : FPt) : Prop :=
  (∃ q, p.1 = F.fin q) ∧ (∃ q, p.2.1 = F.fin q) ∧ (∃ q, p.2.2 = F.fin q)

theorem fmin_fin (a b : ℚ) : fmin (F.fin a) (F.fin b) = F.fin (min a b) := rfl

theorem fmax_fin (a b : ℚ) : fmax (F.fin a) (F.fin b) = F.fin (max a b) := rfl

/-- Folding `fmin` over a finite list yields a finite lower bound. -/
theorem foldl_fmin_le (l : List F) : ∀ a : ℚ,
    (∀ x ∈ l, ∃ q, x = F.fin q) →
    ∃ m : ℚ, l.foldl fmin (F.fin a) = F.fin m ∧ m ≤ a ∧
      ∀ x ∈ l, ∃ q, x = F.fin q ∧ m ≤ q := by
  induction l with
  | nil => intro a _; exact ⟨a, rfl, le_refl a, by simp⟩
  | cons b l ih =>
      intro a hf
      obtain ⟨qb, rfl⟩ := hf b (List.mem_cons_self b l)
      rw [List.foldl_cons, fmin_fin]
      obtain ⟨m, hm, hma, hml⟩ := ih (min a qb)
        (fun x hx => hf x (List.mem_cons_of_mem _ hx))
      refine ⟨m, hm, le_trans hma (min_le_left a qb), ?_⟩
      intro x hx
      rcases List.mem_cons.1 hx with rfl | hx
      · exact ⟨qb, rfl, le_trans hma (min_le_right a qb)⟩
      · exact hml x hx

/-- Folding `fmax` over a finite list yields a finite upper bound. -/
theorem foldl_fmax_ge (l : List F) : ∀ a : ℚ,
    (∀ x ∈ l, ∃ q, x = F.fin q) →
    ∃ m : ℚ, l.foldl fmax (F.fin a) = F.fin m ∧ a ≤ m ∧
      ∀ x ∈ l, ∃ q, x = F.fin q ∧ q ≤ m := by
  induction l with
  | nil => intro a _; exact ⟨a, rfl, le_refl a, by simp⟩
  | cons b l ih =>
      intro a hf
      obtain ⟨qb, rfl⟩ := hf b (List.mem_cons_self b l)
      rw [List.foldl_cons, fmax_fin]
      obtain ⟨m, hm, hma, hml⟩ := ih (max a qb)
        (fun x hx => hf x (List.mem_cons_of_mem _ hx))
      refine ⟨m, hm, le_trans (le_max_left a qb) hma, ?_⟩
      intro x hx
      rcases List.mem_cons.1 hx with rfl | hx
      · exact ⟨qb, rfl, le_trans (le_max_right a qb) hma⟩
      · exact hml x hx

theorem foldl_fminP_fst (l : List FPt) : ∀ p : FPt,
    (l.foldl fminP p).1 = (l.map (fun q => q.1)).foldl fmin p.1 := by
  induction l with
  | nil => intro p; rfl
  | cons b l ih =>
      intro p
      rw [List.foldl_cons, List.map_cons, List.foldl_cons, ih]
      rfl

theorem foldl_fminP_sndfst (l : List FPt) : ∀ p : FPt,
    (l.foldl fminP p).2.1 = (l.map (fun q => q.2.1)).foldl fmin p.2.1 := by
  induction l with
  | nil => intro p; rfl
  | cons b l ih =>
      intro p
      rw [List.foldl_cons, List.map_cons, List.foldl_cons, ih]
      rfl

theorem foldl_fminP_sndsnd (l : List FPt) : ∀ p : FPt,
    (l.foldl fminP p).2.2 = (l.map (fun q => q.2.2)).foldl fmin p.2.2 := by
  induction l with
  | nil => intro p; rfl
  | cons b l ih =>
      intro p
      rw [List.foldl_cons, List.map_cons, List.foldl_cons, ih]
      rfl

theorem foldl_fmaxP_fst (l : List FPt) : ∀ p : FPt,
    (l.foldl fmaxP p).1 = (l.map (fun q => q.1)).foldl fmax p.1 := by
  induction l with
  | nil => intro p; rfl
  | cons b l ih =>
      intro p
      rw [List.foldl_cons, List.map_cons, List.foldl_cons, ih]
      rfl

theorem foldl_fmaxP_sndfst (l : List FPt) : ∀ p : FPt,
    (l.foldl fmaxP p).2.1 = (l.map (fun q => q.2.1)).foldl fmax p.2.1 := by
  induction l with
  | nil => intro p; rfl
  | cons b l ih =>
      intro p
      rw [List.foldl_cons, List.map_cons, List.foldl_cons, ih]
      rfl

theorem foldl_fmaxP_sndsnd (l : List FPt) : ∀ p : FPt,
    (l.foldl fmaxP p).2.2 = (l.map (fun q => q.2.2)).foldl fmax p.2.2 := by
  induction l with
  | nil => intro p; rfl
  | cons b l ih =>
      intro p
      rw [List.foldl_cons, List.map_cons, List.foldl_cons, ih]
      rfl

theorem fbound_comp_le (x0 : F) (xs : List F) (q0 : ℚ) (h0 : x0 = F.fin q0)
    (hf : ∀ x ∈ xs, ∃ q, x = F.fin q) :
    ∀ x ∈ x0 :: xs, fle (xs.foldl fmin x0) x = true := by
  subst h0
  obtain ⟨m, hm, hma, hml⟩ := foldl_fmin_le xs q0 hf
  intro x hx
  rcases List.mem_cons.1 hx with rfl | hx
  · rw [hm]; exact fle_fin_iff.2 hma
  · obtain ⟨q, hq, hmq⟩ := hml x hx
    rw [hm, hq]; exact fle_fin_iff.2 hmq

theorem fbound_comp_ge (x0 : F) (xs : List F) (q0 : ℚ) (h0 : x0 = F.fin q0)
    (hf : ∀ x ∈ xs, ∃ q, x = F.fin q) :
    ∀ x ∈ x0 :: xs, fle x (xs.foldl fmax x0) = true := by
  subst h0
  obtain ⟨m, hm, hma, hml⟩ := foldl_fmax_ge xs q0 hf
  intro x hx
  rcases List.mem_cons.1 hx with rfl | hx
  · rw [hm]; exact fle_fin_iff.2 hma
  · obtain ⟨q, hq, hmq⟩ := hml x hx
    rw [hm, hq]; exact fle_fin_iff.2 hmq

/-- For a non-empty all-finite cloud, `xyz.min(0)`/`xyz.max(0)` bracket
every point. -/
theorem inBox_bounds (pts : List FPt) (hfin : ∀ p ∈ pts, finPt p)
    (hne : pts ≠ []) :
    ∀ p ∈ pts, inBoxPt p (fboundsLow pts) (fboundsHigh pts) := by
  obtain ⟨p0, rest, rfl⟩ := List.exists_cons_of_ne_nil hne
  obtain ⟨⟨q0x, h0x⟩, ⟨q0y, h0y⟩, ⟨q0z, h0z⟩⟩ :=
    hfin p0 (List.mem_cons_self p0 rest)
  have hfx : ∀ x ∈ rest.map (fun q => q.1), ∃ q, x = F.fin q := by
    intro x hx
    obtain ⟨r, hr, rfl⟩ := List.mem_map.1 hx
    exact (hfin r (List.mem_cons_of_mem _ hr)).1
  have hfy : ∀ x ∈ rest.map (fun q => q.2.1), ∃ q, x = F.fin q := by
    intro x hx
    obtain ⟨r, hr, rfl⟩ := List.mem_map.1 hx
    exact (hfin r (List.mem_cons_of_mem _ hr)).2.1
  have hfz : ∀ x ∈ rest.map (fun q => q.2.2), ∃ q, x = F.fin q := by
    intro x hx
    obtain ⟨r, hr, rfl⟩ := List.mem_map.1 hx
    exact (hfin r (List.mem_cons_of_mem _ hr)).2.2
  intro p hp
  have hmem1 : p.1 ∈ p0.1 :: rest.map (fun q => q.1) := by
    rcases List.mem_cons.1 hp with rfl | hp
    · exact List.mem_cons_self _ _
    · exact List.mem_cons_of_mem _ (List.mem_map.2 ⟨p, hp, rfl⟩)
  have hmem2 : p.2.1 ∈ p0.2.1 :: rest.map (fun q => q.2.1) := by
    rcases List.mem_cons.1 hp with rfl | hp
    · exact List.mem_cons_self _ _
    · exact List.mem_cons_of_mem _ (List.mem_map.2 ⟨p, hp, rfl⟩)
  have hmem3 : p.2.2 ∈ p0.2.2 :: rest.map (fun q => q.2.2) := by
    rcases List.mem_cons.1 hp with rfl | hp
    · exact List.mem_cons_self _ _
    · exact List.mem_cons_of_mem _ (List.mem_map.2 ⟨p, hp, rfl⟩)
  have e1 : (fboundsLow (p0 :: rest)).1 =
      (rest.map (fun q => q.1)).foldl fmin p0.1 := foldl_fminP_fst rest p0
  have e2 : (fboundsLow (p0 :: rest)).2.1 =
      (rest.map (fun q => q.2.1)).foldl fmin p0.2.1 := foldl_fminP_sndfst rest p0
  have e3 : (fboundsLow (p0 :: rest)).2.2 =
      (rest.map (fun q => q.2.2)).foldl fmin p0.2.2 := foldl_fminP_sndsnd rest p0
  have e4 : (fboundsHigh (p0 :: rest)).1 =
      (rest.map (fun q => q.1)).foldl fmax p0.1 := foldl_fmaxP_fst rest p0
  have e5 : (fboundsHigh (p0 :: rest)).2.1 =
      (rest.map (fun q => q.2.1)).foldl fmax p0.2.1 := foldl_fmaxP_sndfst rest p0
  have e6 : (fboundsHigh (p0 :: rest)).2.2 =
      (rest.map (fun q => q.2.2)).foldl fmax p0.2.2 := foldl_fmaxP_sndsnd rest p0
  refine ⟨?_, ?_, ?_, ?_, ?_, ?_⟩
  · rw [e1]; exact fbound_comp_le p0.1 _ q0x h0x hfx p.1 hmem1
  · rw [e4]; exact fbound_comp_ge p0.1 _ q0x h0x hfx p.1 hmem1
  · rw [e2]; exact fbound_comp_le p0.2.1 _ q0y h0y hfy p.2.1 hmem2
  · rw [e5]; exact fbound_comp_ge p0.2.1 _ q0y h0y hfy p.2.1 hmem2
  · rw [e3]; exact fbound_comp_le p0.2.2 _ q0z h0z hfz p.2.2 hmem3
  · rw [e6]; exact fbound_comp_ge p0.2.2 _ q0z h0z hfz p.2.2 hmem3

/-- The octant digit designated by the claim's bit convention: bit `k` is
set iff the point's coordinate on axis `k` is `≥` the centre's. -/
def octantOf (p c : FPt) : ℕ :=
  (if fle c.1 p.1 = true then 1 else 0) +
    (if fle c.2.1 p.2.1 = true then 2 else 0) +
    (if fle c.2.2 p.2.2 = true then 4 else 0)

/-- One axis of the octant test, for a point strictly inside the slab:
the half-open child interval on that axis contains the point iff the
axis bit agrees with the midpoint comparison. -/
theorem axis_in_iff_F {qbl qp qbh : ℚ} (h1 : qbl ≤ qp) (hs : qp < qbh)
    (B : Prop) [Decidable B] :
    ((fle (if B then fhalf (fadd (F.fin qbl) (F.fin qbh)) else F.fin qbl)
        (F.fin qp) = true) ∧
      (flt (F.fin qp)
        (if B then F.fin qbh else fhalf (fadd (F.fin qbl) (F.fin qbh))) =
          true)) ↔
      (B ↔ (qbl + qbh) / 2 ≤ qp) := by
  by_cases hB : B
  · rw [if_pos hB, if_pos hB]
    simp only [fadd, fhalf, fle_fin_iff, flt_fin_iff]
    constructor
    · rintro ⟨hm, -⟩; exact iff_of_true hB hm
    · intro hiff; exact ⟨hiff.1 hB, hs⟩
  · rw [if_neg hB, if_neg hB]
    simp only [fadd, fhalf, fle_fin_iff, flt_fin_iff]
    constructor
    · rintro ⟨-, hm⟩; exact iff_of_false hB (not_le.2 hm)
    · intro hiff; exact ⟨h1, not_le.1 (fun hm => hB (hiff.2 hm))⟩

/-- One axis of the octant test when the point sits on the slab's upper
boundary: no child interval contains it, whichever the bit. -/
theorem axis_none_F {qbl qp qbh : ℚ} (h1 : qbl ≤ qp) (h2 : qp ≤ qbh)
    (hn : ¬ qp < qbh) (B : Prop) [Decidable B] :
    ¬ ((fle (if B then fhalf (fadd (F.fin qbl) (F.fin qbh)) else F.fin qbl)
        (F.fin qp) = true) ∧
      (flt (F.fin qp)
        (if B then F.fin qbh else fhalf (fadd (F.fin qbl) (F.fin qbh))) =
          true)) := by
  by_cases hB : B
  · rw [if_pos hB, if_pos hB]
    rintro ⟨-, hlt⟩
    rw [flt_fin_iff] at hlt
    exact hn hlt
  · rw [if_neg hB, if_neg hB]
    rintro ⟨-, hlt⟩
    simp only [fadd, fhalf, flt_fin_iff] at hlt
    have hq : qp = qbh := le_antisymm h2 (not_lt.1 hn)
    linarith

/-- A digit below 8 is determined by its three tested bits. -/
theorem octant_eq_iff (o : ℕ) (ho : o < 8) (P Q R : Prop) [Decidable P]
    [Decidable Q] [Decidable R] :
    (o = (if P then 1 else 0) + (if Q then 2 else 0) + (if R then 4 else 0)) ↔
      (((o &&& 1 ≠ 0) ↔ P) ∧ ((o &&& 2 ≠ 0) ↔ Q) ∧ ((o &&& 4 ≠ 0) ↔ R)) := by
  by_cases hp : P <;> by_cases hq : Q <;> by_cases hr : R <;>
    simp only [hp, hq, hr, if_true, if_false, iff_true, iff_false,
      not_not, ne_eq] <;>
    interval_cases o <;> decide

set_option maxHeartbeats 1000000 in
/-- For a point inside the node's box and strictly below its upper corner,
the octant filter accepts exactly the digit designated by the bit
convention. -/
theorem inOct_iff_octantOf {bl bh p : FPt} (hbox : inBoxPt p bl bh)
    (htop : fltTopPt p bh) {o : ℕ} (ho : o < 8) :
    (inOct p (childBounds bl bh (midPt bl bh) o).1
        (childBounds bl bh (midPt bl bh) o).2 = true) ↔
      o = octantOf p (midPt bl bh) := by
  obtain ⟨blx, bly, blz⟩ := bl
  obtain ⟨bhx, bhy, bhz⟩ := bh
  obtain ⟨px, py, pz⟩ := p
  obtain ⟨h1, h2, h3, h4, h5, h6⟩ := hbox
  obtain ⟨t1, t2, t3⟩ := htop
  obtain ⟨qblx, qpx, hblx, hpx, hle1⟩ := fle_fin h1
  obtain ⟨qbly, qpy, hbly, hpy, hle3⟩ := fle_fin h3
  obtain ⟨qblz, qpz, hblz, hpz, hle5⟩ := fle_fin h5
  obtain ⟨qpx2, qbhx, hpx2, hbhx, hle2⟩ := fle_fin h2
  obtain ⟨qpy2, qbhy, hpy2, hbhy, hle4⟩ := fle_fin h4
  obtain ⟨qpz2, qbhz, hpz2, hbhz, hle6⟩ := fle_fin h6
  rw [hpx] at hpx2; cases hpx2
  rw [hpy] at hpy2; cases hpy2
  rw [hpz] at hpz2; cases hpz2
  have hblx' : blx = F.fin qblx := hblx
  have hbly' : bly = F.fin qbly := hbly
  have hblz' : blz = F.fin qblz := hblz
  have hbhx' : bhx = F.fin qbhx := hbhx
  have hbhy' : bhy = F.fin qbhy := hbhy
  have hbhz' : bhz = F.fin qbhz := hbhz
  have hpx' : px = F.fin qpx := hpx
  have hpy' : py = F.fin qpy := hpy
  have hpz' : pz = F.fin qpz := hpz
  subst hblx' hbly' hblz' hbhx' hbhy' hbhz' hpx' hpy' hpz'
  have t1' : qpx < qbhx := flt_fin_iff.1 t1
  have t2' : qpy < qbhy := flt_fin_iff.1 t2
  have t3' : qpz < qbhz := flt_fin_iff.1 t3
  have hx := axis_in_iff_F hle1 t1' (o &&& 1 ≠ 0)
  have hy := axis_in_iff_F hle3 t2' (o &&& 2 ≠ 0)
  have hz := axis_in_iff_F hle5 t3' (o &&& 4 ≠ 0)
  have hoct : octantOf (F.fin qpx, F.fin qpy, F.fin qpz)
      (midPt (F.fin qblx, F.fin qbly, F.fin qblz)
        (F.fin qbhx, F.fin qbhy, F.fin qbhz)) =
      (if (qblx + qbhx) / 2 ≤ qpx then 1 else 0) +
        (if (qbly + qbhy) / 2 ≤ qpy then 2 else 0) +
        (if (qblz + qbhz) / 2 ≤ qpz then 4 else 0) := by
    simp [octantOf, midPt, fadd, fhalf, fle_fin_iff]
  rw [inOct_decomp, hoct, octant_eq_iff o ho, childBounds_lo1,
    childBounds_lo2, childBounds_lo3, childBounds_hi1, childBounds_hi2,
    childBounds_hi3, midPt_1, midPt_2, midPt_3]
  dsimp only
  constructor
  · rintro ⟨a1, a2, a3, a4, a5, a6⟩
    exact ⟨hx.1 ⟨a1, a2⟩, hy.1 ⟨a3, a4⟩, hz.1 ⟨a5, a6⟩⟩
  · rintro ⟨b1, b2, b3⟩
    obtain ⟨a1, a2⟩ := hx.2 b1
    obtain ⟨a3, a4⟩ := hy.2 b2
    obtain ⟨a5, a6⟩ := hz.2 b3
    exact ⟨a1, a2, a3, a4, a5, a6⟩

/-- A point of the node's box lying on the upper corner on some axis is
accepted by no octant filter. -/
theorem inOct_false_of_ntop {bl bh p : FPt} (hbox : inBoxPt p bl bh)
    (hntop : ¬ fltTopPt p bh) (o : ℕ) :
    inOct p (childBounds bl bh (midPt bl bh) o).1
      (childBounds bl bh (midPt bl bh) o).2 = false := by
  obtain ⟨blx, bly, blz⟩ := bl
  obtain ⟨bhx, bhy, bhz⟩ := bh
  obtain ⟨px, py, pz⟩ := p
  obtain ⟨h1, h2, h3, h4, h5, h6⟩ := hbox
  obtain ⟨qblx, qpx, hblx, hpx, hle1⟩ := fle_fin h1
  obtain ⟨qbly, qpy, hbly, hpy, hle3⟩ := fle_fin h3
  obtain ⟨qblz, qpz, hblz, hpz, hle5⟩ := fle_fin h5
  obtain ⟨qpx2, qbhx, hpx2, hbhx, hle2⟩ := fle_fin h2
  obtain ⟨qpy2, qbhy, hpy2, hbhy, hle4⟩ := fle_fin h4
  obtain ⟨qpz2, qbhz, hpz2, hbhz, hle6⟩ := fle_fin h6
  rw [hpx] at hpx2; cases hpx2
  rw [hpy] at hpy2; cases hpy2
  rw [hpz] at hpz2; cases hpz2
  have hblx' : blx = F.fin qblx := hblx
  have hbly' : bly = F.fin qbly := hbly
  have hblz' : blz = F.fin qblz := hblz
  have hbhx' : bhx = F.fin qbhx := hbhx
  have hbhy' : bhy = F.fin qbhy := hbhy
  have hbhz' : bhz = F.fin qbhz := hbhz
  have hpx' : px = F.fin qpx := hpx
  have hpy' : py = F.fin qpy := hpy
  have hpz' : pz = F.fin qpz := hpz
  subst hblx' hbly' hblz' hbhx' hbhy' hbhz' hpx' hpy' hpz'
  rw [Bool.eq_false_iff]
  intro hoct
  obtain ⟨c1, c2, c3, c4, c5, c6⟩ := inOct_decomp.1 hoct
  rw [childBounds_lo1, midPt_1] at c1
  rw [childBounds_hi1, midPt_1] at c2
  rw [childBounds_lo2, midPt_2] at c3
  rw [childBounds_hi2, midPt_2] at c4
  rw [childBounds_lo3, midPt_3] at c5
  rw [childBounds_hi3, midPt_3] at c6
  by_cases tx : qpx < qbhx
  · by_cases ty : qpy < qbhy
    · by_cases tz : qpz < qbhz
      · exact hntop ⟨flt_fin_iff.2 tx, flt_fin_iff.2 ty, flt_fin_iff.2 tz⟩
      · exact axis_none_F hle5 hle6 tz (o &&& 4 ≠ 0) ⟨c5, c6⟩
    · exact axis_none_F hle3 hle4 ty (o &&& 2 ≠ 0) ⟨c3, c4⟩
  · exact axis_none_F hle1 hle2 tx (o &&& 1 ≠ 0) ⟨c1, c2⟩

theorem fle_nan_right (a : F) : fle a F.nan = false := by cases a <;> rfl

theorem flt_nan_right (a : F) : flt a F.nan = false := by cases a <;> rfl

/-- C2 (corrected): for every non-leaf node of a build over finite points,
a point of the node lying strictly below the node's upper bbox corner on
every axis is assigned to exactly one child octant — the digit given by the
claimed bit convention (bit k set iff coordinate ≥ centre on axis k); but a
point with some coordinate equal to the node's upper corner is assigned to
NO octant (the filter is strict at the top), contradicting the original
claim's "every point … exactly one of its children".  Children ids append
the 0–7 digit to the parent's id, and a child is created iff its octant
holds at least one point. -/
theorem claim_C2 (sampler : Sampler) (pts : List FPt) (target maxd : ℕ)
    (res : OctreeResult)
    (h : buildOctree sampler pts target maxd = Except.ok res)
    (hfin : ∀ p ∈ pts, finPt p)
    (nd : ONode) (hnd : nd ∈ res.nodes) (hchild : nd.children ≠ []) :
    (∀ i ∈ nd.indices, fltTopPt (ptAt pts i) nd.bounds_high →
      ∀ o, o < 8 →
        (i ∈ octIdx pts nd.indices nd.bounds_low nd.bounds_high o ↔
          o = octantOf (ptAt pts i) (midPt nd.bounds_low nd.bounds_high))) ∧
    (∀ i ∈ nd.indices, ¬ fltTopPt (ptAt pts i) nd.bounds_high →
      ∀ o, i ∉ octIdx pts nd.indices nd.bounds_low nd.bounds_high o) ∧
    (∀ o, o < 8 →
      (appendDigit nd.node_id o ∈ nd.children ↔
        octIdx pts nd.indices nd.bounds_low nd.bounds_high o ≠ [])) ∧
    (∀ o, o < 8 →
      octIdx pts nd.indices nd.bounds_low nd.bounds_high o ≠ [] →
      ∃ ch ∈ res.nodes, ch.node_id = appendDigit nd.node_id o ∧
        ch.indices = octIdx pts nd.indices nd.bounds_low nd.bounds_high o ∧
        ch.level = nd.level + 1) := by
  simp only [buildOctree] at h
  by_cases hemp : pts.isEmpty = true
  · rw [if_pos hemp] at h
    exact absurd h (by simp)
  · rw [if_neg hemp] at h
    simp only [Except.ok.injEq] at h
    subst h
    have hptsne : pts ≠ [] := by
      intro he
      rw [he] at hemp
      exact hemp rfl
    have hrootbox : ∀ i ∈ List.range pts.length,
        inBoxPt (ptAt pts i) (fboundsLow pts) (fboundsHigh pts) := by
      intro i hi
      rw [List.mem_range] at hi
      have hmem : ptAt pts i ∈ pts := by
        rw [ptAt, List.getD_eq_getElem pts _ hi]
        exact List.getElem_mem hi
      exact inBox_bounds pts hfin hptsne _ hmem
    obtain ⟨hper, -⟩ := buildRec_struct sampler pts target maxd (maxd + 1) "r"
      [] (List.range pts.length) (fboundsLow pts) (fboundsHigh pts) 0 rfl rfl
      (by simp) (by omega) (by omega)
    obtain ⟨-, hsubdiv, hleaf⟩ := hper nd hnd
    have hguard : target < nd.point_count ∧ nd.level < maxd := by
      by_contra hg
      exact hchild (hleaf hg)
    obtain ⟨hiff, hex⟩ := hsubdiv hguard
    have hnodebox := buildRec_box sampler pts target maxd (maxd + 1) "r" []
      (List.range pts.length) (fboundsLow pts) (fboundsHigh pts) 0 hrootbox
      nd hnd
    refine ⟨?_, ?_, hiff, ?_⟩
    · intro i hi htop o ho
      rw [octIdx, List.mem_filter, and_iff_right hi]
      exact inOct_iff_octantOf (hnodebox i hi) htop ho
    · intro i hi hntop o hmemo
      simp only [octIdx, List.mem_filter] at hmemo
      have h2 := inOct_false_of_ntop (hnodebox i hi) hntop o
      exact Bool.noConfusion (hmemo.2.symm.trans h2)
    · intro o ho hone
      obtain ⟨ch, hch, hcid, hcidx, -, -, hclev⟩ := hex o ho hone
      exact ⟨ch, hch, hcid, hcidx, hclev⟩

/-- The two-point cloud whose second point sits on the root's upper bbox
corner. -/
def ptsC2 : List FPt :=
  [(F.fin 0, F.fin 0, F.fin 0), (F.fin 1, F.fin 1, F.fin 1)]

theorem fboundsLow_ptsC2 : fboundsLow ptsC2 = (F.fin 0, F.fin 0, F.fin 0) := by
  have hmin : min (0 : ℚ) 1 = 0 := min_eq_left (by norm_num)
  show fminP (F.fin 0, F.fin 0, F.fin 0) (F.fin 1, F.fin 1, F.fin 1) =
    (F.fin 0, F.fin 0, F.fin 0)
  simp [fminP, fmin, hmin]

theorem fboundsHigh_ptsC2 :
    fboundsHigh ptsC2 = (F.fin 1, F.fin 1, F.fin 1) := by
  have hmax : max (0 : ℚ) 1 = 1 := max_eq_right (by norm_num)
  show fmaxP (F.fin 0, F.fin 0, F.fin 0) (F.fin 1, F.fin 1, F.fin 1) =
    (F.fin 1, F.fin 1, F.fin 1)
  simp [fmaxP, fmax, hmax]

/-- The root node of the `ptsC2` build subdivides: the origin point falls
in octant 0, so a child exists. -/
theorem rootC2_spec :
    ∃ res, buildOctree takeSampler ptsC2 1 2 = Except.ok res ∧
      ∃ nd ∈ res.nodes, nd.node_id = "r" ∧ nd.indices = [0, 1] ∧
        nd.bounds_low = (F.fin 0, F.fin 0, F.fin 0) ∧
        nd.bounds_high = (F.fin 1, F.fin 1, F.fin 1) ∧
        nd.point_count = 2 ∧ nd.level = 0 ∧ nd.children ≠ [] := by
  refine ⟨_, rfl, ?_⟩
  obtain ⟨hper, hroot⟩ := buildRec_struct takeSampler ptsC2 1 2 3 "r" []
    (List.range ptsC2.length) (fboundsLow ptsC2) (fboundsHigh ptsC2) 0 rfl rfl
    (by simp) (by omega) (by omega)
  obtain ⟨nd, hnd, hid, hpath, hlev, hbl, hbh, hidx, hcnt⟩ := hroot
  have hidx' : nd.indices = [0, 1] := by rw [hidx]; decide
  have hbl' : nd.bounds_low = (F.fin 0, F.fin 0, F.fin 0) := by
    rw [hbl, fboundsLow_ptsC2]
  have hbh' : nd.bounds_high = (F.fin 1, F.fin 1, F.fin 1) := by
    rw [hbh, fboundsHigh_ptsC2]
  have hcnt' : nd.point_count = 2 := by rw [hcnt]; decide
  refine ⟨nd, hnd, hid, hidx', hbl', hbh', hcnt', hlev, ?_⟩
  obtain ⟨-, hsubdiv, -⟩ := hper nd hnd
  have hguard : 1 < nd.point_count ∧ nd.level < 2 := by
    rw [hcnt', hlev]
    exact ⟨by decide, by decide⟩
  obtain ⟨hiff, -⟩ := hsubdiv hguard
  have h0mem : (0 : ℕ) ∈
      octIdx ptsC2 nd.indices nd.bounds_low nd.bounds_high 0 := by
    simp only [octIdx, List.mem_filter]
    refine ⟨by rw [hidx']; decide, ?_⟩
    rw [hbl', hbh', inOct_decomp]
    rw [childBounds_lo1, childBounds_lo2, childBounds_lo3, childBounds_hi1,
      childBounds_hi2, childBounds_hi3, midPt_1, midPt_2, midPt_3]
    rw [if_neg (by decide : ¬((0 : ℕ) &&& 1 ≠ 0)),
      if_neg (by decide : ¬((0 : ℕ) &&& 2 ≠ 0)),
      if_neg (by decide : ¬((0 : ℕ) &&& 4 ≠ 0))]
    dsimp only
    refine ⟨?_, ?_, ?_, ?_, ?_, ?_⟩
    · exact fle_fin_iff.2 (le_refl 0)
    · show flt (F.fin 0) (fhalf (fadd (F.fin 0) (F.fin 1))) = true
      rw [show fhalf (fadd (F.fin 0) (F.fin 1)) = F.fin ((0 + 1) / 2) from
        rfl]
      exact flt_fin_iff.2 (by norm_num)
    · exact fle_fin_iff.2 (le_refl 0)
    · show flt (F.fin 0) (fhalf (fadd (F.fin 0) (F.fin 1))) = true
      rw [show fhalf (fadd (F.fin 0) (F.fin 1)) = F.fin ((0 + 1) / 2) from
        rfl]
      exact flt_fin_iff.2 (by norm_num)
    · exact fle_fin_iff.2 (le_refl 0)
    · show flt (F.fin 0) (fhalf (fadd (F.fin 0) (F.fin 1))) = true
      rw [show fhalf (fadd (F.fin 0) (F.fin 1)) = F.fin ((0 + 1) / 2) from
        rfl]
      exact flt_fin_iff.2 (by norm_num)
  exact List.ne_nil_of_mem
    ((hiff 0 (by decide)).2 (List.ne_nil_of_mem h0mem))

theorem claim_C2_witness :
    ∃ res, buildOctree takeSampler ptsC2 1 2 = Except.ok res ∧
      ∃ nd ∈ res.nodes, nd.children ≠ [] ∧
        ((∀ i ∈ nd.indices, fltTopPt (ptAt ptsC2 i) nd.bounds_high →
          ∀ o, o < 8 →
            (i ∈ octIdx ptsC2 nd.indices nd.bounds_low nd.bounds_high o ↔
              o = octantOf (ptAt ptsC2 i)
                (midPt nd.bounds_low nd.bounds_high))) ∧
        (∀ i ∈ nd.indices, ¬ fltTopPt (ptAt ptsC2 i) nd.bounds_high →
          ∀ o, i ∉ octIdx ptsC2 nd.indices nd.bounds_low nd.bounds_high o) ∧
        (∀ o, o < 8 →
          (appendDigit nd.node_id o ∈ nd.children ↔
            octIdx ptsC2 nd.indices nd.bounds_low nd.bounds_high o ≠ [])) ∧
        (∀ o, o < 8 →
          octIdx ptsC2 nd.indices nd.bounds_low nd.bounds_high o ≠ [] →
          ∃ ch ∈ res.nodes, ch.node_id = appendDigit nd.node_id o ∧
            ch.indices =
              octIdx ptsC2 nd.indices nd.bounds_low nd.bounds_high o ∧
            ch.level = nd.level + 1)) := by
  obtain ⟨res, hres, nd, hnd, -, -, -, -, -, -, hch⟩ := rootC2_spec
  have hfin : ∀ p ∈ ptsC2, finPt p := by
    intro p hp
    rcases (show p = (F.fin 0, F.fin 0, F.fin 0) ∨
        p = (F.fin 1, F.fin 1, F.fin 1) by simpa [ptsC2] using hp) with
      rfl | rfl
    · exact ⟨⟨0, rfl⟩, ⟨0, rfl⟩, ⟨0, rfl⟩⟩
    · exact ⟨⟨1, rfl⟩, ⟨1, rfl⟩, ⟨1, rfl⟩⟩
  exact ⟨res, hres, nd, hnd, hch,
    claim_C2 takeSampler ptsC2 1 2 res hres hfin nd hnd hch⟩

/-- Refutation of C2 as stated: in the two-point build the root is
non-leaf, yet its point 1 — which sits on the root's upper bbox corner —
belongs to NO child octant: it is dropped rather than assigned to exactly
one child. -/
theorem claim_C2_counterexample :
    ∃ res, buildOctree takeSampler ptsC2 1 2 = Except.ok res ∧
      ∃ nd ∈ res.nodes, nd.children ≠ [] ∧
        ∃ i ∈ nd.indices, ∀ o, o < 8 →
          i ∉ octIdx ptsC2 nd.indices nd.bounds_low nd.bounds_high o := by
  obtain ⟨res, hres, nd, hnd, hid, hidx, hbl, hbh, hcnt, hlev, hch⟩ :=
    rootC2_spec
  refine ⟨res, hres, nd, hnd, hch, 1, by rw [hidx]; decide, ?_⟩
  intro o ho hmem
  simp only [octIdx, List.mem_filter] at hmem
  have hbox : inBoxPt (ptAt ptsC2 1) nd.bounds_low nd.bounds_high := by
    rw [hbl, hbh]
    refine ⟨?_, ?_, ?_, ?_, ?_, ?_⟩
    · exact fle_fin_iff.2 (by norm_num)
    · exact fle_fin_iff.2 (le_refl 1)
    · exact fle_fin_iff.2 (by norm_num)
    · exact fle_fin_iff.2 (le_refl 1)
    · exact fle_fin_iff.2 (by norm_num)
    · exact fle_fin_iff.2 (le_refl 1)
  have hntop : ¬ fltTopPt (ptAt ptsC2 1) nd.bounds_high := by
    rw [hbh]
    rintro ⟨t1, -, -⟩
    have : (1 : ℚ) < 1 := flt_fin_iff.1 t1
    exact absurd this (by norm_num)
  have hfalse := inOct_false_of_ntop hbox hntop o
  exact Bool.noConfusion (hmem.2.symm.trans hfalse)

theorem fle_nan_left (b : F) : fle F.nan b = false := by cases b <;> rfl

theorem flt_nan_left (b : F) : flt F.nan b = false := by cases b <;> rfl

/-- For any non-empty input the build succeeds with the assembled record:
there is no validation of any kind before the recursion. -/
theorem buildOctree_ok (sampler : Sampler) (pts : List FPt) (target maxd : ℕ)
    (hne : pts ≠ []) :
    buildOctree sampler pts target maxd = Except.ok
      { root_id := "r",
        nodes := (buildRec sampler pts target maxd (maxd + 1) "r" []
          (List.range pts.length) (fboundsLow pts) (fboundsHigh pts) 0).1,
        tiles := (buildRec sampler pts target maxd (maxd + 1) "r" []
          (List.range pts.length) (fboundsLow pts) (fboundsHigh pts) 0).2,
        total_points := pts.length,
        max_level := ((buildRec sampler pts target maxd (maxd + 1) "r" []
          (List.range pts.length) (fboundsLow pts) (fboundsHigh pts)
            0).1.map (fun nd => nd.level)).foldl max 0,
        node_count := (buildRec sampler pts target maxd (maxd + 1) "r" []
          (List.range pts.length) (fboundsLow pts) (fboundsHigh pts)
            0).1.length } := by
  have hemp : pts.isEmpty = false := by
    cases pts with
    | nil => exact absurd rfl hne
    | cons a l => rfl
  simp only [buildOctree]
  rw [if_neg (by rw [hemp]; simp : ¬ pts.isEmpty = true)]

/-- Some coordinate of the point is the NaN marker. -/
def hasNanPt (p : FPt) : Prop :=
  p.1 = F.nan ∨ p.2.1 = F.nan ∨ p.2.2 = F.nan

/-- C8 (corrected): the build has no coordinate-validation step. For ANY
non-empty input — including points with NaN coordinates — it returns `ok`,
records metadata with a root node counting all points, and persists at
least one tile; the original claim's abort never happens.  The only effect
of a NaN coordinate is silent: every IEEE comparison against NaN is false,
so the point passes no octant filter and is dropped from every child node.
(Infinite coordinates are not covered by this model: in IEEE/numpy an
infinite point can still satisfy an octant mask, e.g. `-inf >= -inf`.) -/
theorem claim_C8 (sampler : Sampler) (pts : List FPt) (target maxd : ℕ)
    (hne : pts ≠ []) :
    (∃ res, buildOctree sampler pts target maxd = Except.ok res ∧
      res.total_points = pts.length ∧ res.tiles ≠ [] ∧
      ∃ nd ∈ res.nodes, nd.node_id = "r" ∧ nd.point_count = pts.length) ∧
    (∀ res, buildOctree sampler pts target maxd = Except.ok res →
      ∀ i, hasNanPt (ptAt pts i) → ∀ nd ∈ res.nodes, ∀ o,
        i ∉ octIdx pts nd.indices nd.bounds_low nd.bounds_high o) := by
  constructor
  · refine ⟨_, buildOctree_ok sampler pts target maxd hne, rfl, ?_, ?_⟩
    · -- at least one tile is always written for the root
      have htne : ∀ nid lv,
          nodeTile sampler target maxd nid (List.range pts.length) lv ≠ [] := by
        intro nid lv
        rw [nodeTile, if_pos]
        · split <;> simp
        · rw [List.length_range]
          exact List.length_pos.2 hne
      show (buildRec sampler pts target maxd (maxd + 1) "r" []
        (List.range pts.length) (fboundsLow pts) (fboundsHigh pts) 0).2 ≠ []
      unfold buildRec
      split
      · intro hnil
        exact htne "r" 0 (List.append_eq_nil.1 hnil).1
      · exact htne "r" 0
    · obtain ⟨-, hroot⟩ := buildRec_struct sampler pts target maxd (maxd + 1)
        "r" [] (List.range pts.length) (fboundsLow pts) (fboundsHigh pts) 0
        rfl rfl (by simp) (by omega) (by omega)
      obtain ⟨nd, hnd, hid, -, -, -, -, -, hcnt⟩ := hroot
      refine ⟨nd, hnd, hid, ?_⟩
      rw [hcnt, List.length_range]
  · intro res hok i hnan nd hnd o hmem
    simp only [octIdx, List.mem_filter] at hmem
    obtain ⟨-, c2, -, c4, -, c6⟩ := inOct_decomp.1 hmem.2
    rcases hnan with hc | hc | hc
    · rw [hc, flt_nan_left] at c2
      exact Bool.noConfusion c2
    · rw [hc, flt_nan_left] at c4
      exact Bool.noConfusion c4
    · rw [hc, flt_nan_left] at c6
      exact Bool.noConfusion c6

/-- A one-point cloud whose x coordinate is NaN. -/
def ptsNaN : List FPt := [(F.nan, F.fin 0, F.fin 0)]

theorem claim_C8_witness :
    (∃ res, buildOctree takeSampler ptsNaN 1 12 = Except.ok res ∧
      res.total_points = ptsNaN.length ∧ res.tiles ≠ [] ∧
      ∃ nd ∈ res.nodes, nd.node_id = "r" ∧
        nd.point_count = ptsNaN.length) ∧
    (∀ res, buildOctree takeSampler ptsNaN 1 12 = Except.ok res →
      ∀ i, hasNanPt (ptAt ptsNaN i) → ∀ nd ∈ res.nodes, ∀ o,
        i ∉ octIdx ptsNaN nd.indices nd.bounds_low nd.bounds_high o) :=
  claim_C8 takeSampler ptsNaN 1 12 (List.cons_ne_nil _ _)

/-- Refutation of C8 as stated: for the NaN-coordinate cloud the build does
NOT abort — it returns `ok`, persists the root tile holding the NaN point,
and writes non-empty octree metadata. -/
theorem claim_C8_counterexample :
    ∃ res, buildOctree takeSampler ptsNaN 1 12 = Except.ok res ∧
      res.tiles = [("r", [0])] ∧ res.nodes ≠ [] ∧ res.total_points = 1 :=
  ⟨_, rfl, rfl, List.cons_ne_nil _ _, rfl⟩

end SdfHints
